import Mathlib

/-!
# Dynamic bit array (`src/gaoler.cpp`)

A shallow embedding of the C++ class `BitArray` and of its free operators.

Modelling conventions.

* `int` is a 32-bit two's-complement integer, carried by `Int`; C++ `/` and
  `%` on `int` are the truncating `Int.tdiv` and `Int.tmod`.  The sums that
  can leave the range of `int`, `num_bits + 7` in the constructor,
  `new_size + 7` in `resize` and `bit_count + 1` in `push_back`, wrap around
  (`wrapInt`), which is what the compiled program does.  The other `int`
  expressions (`bit_count - 1`, `i - n`, `i + n`, `bit_count - n`, `i * 8`)
  stay between `-1` and `bit_count` where they are evaluated.
* `data.resize(n)` receives an `int` converted to `size_type`: a negative
  `n` becomes a size above `max_size()` and the call throws
  `std::length_error`, leaving the vector as it was (`vecResizeInt`).
  Exhaustion of memory is not modelled.
* `unsigned char` is a `Nat`; every write to storage narrows with `% 256`.
  Expressions are evaluated after integer promotion, as in C++: the operand
  `~(1 << k)` of `&=` is the 32-bit two's-complement pattern of the `int`
  complement (`bitNot32`).
* `unsigned long` is a `Nat`; its width in bytes, `sizeof(unsigned long)`, is
  a parameter of the constructor.
* `std::vector<unsigned char>` is `List Nat`.  An access `data[i]` or
  `data.back()` outside the vector is undefined behaviour in C++; the model
  makes it observable as the exception value `Exn.undefined_access`.
* A `const` member function is a function to `Except Exn _`.  A mutating
  member function returns an `Outcome`: the exception raised, if any, together
  with the state of the object when control leaves the function, so that
  what a failed call did to the object can be stated.
* `Bytes` states that the elements of `data` are in the range of
  `unsigned char`; the constructors establish it and every operation keeps it
  (`bytes_invariant`).  The `while (b)` loop of `count()` is a total function,
  by well-founded recursion on `b`.
* A counted loop `for (int i = lo; i < hi; ++i)` whose body changes neither
  `i` nor the bounds runs `max (hi - lo) 0` times; `loopUp` and `loopDown`
  take that trip count.
-/

/-- The exceptions of the class: `std::invalid_argument`, `std::out_of_range`,
the `std::length_error` of `std::vector::resize`, and the marker for a storage
access outside the vector. -/
inductive Exn where
  | invalid_argument
  | out_of_range
  | length_error
  | undefined_access
  deriving DecidableEq, Repr

deriving instance DecidableEq for Except

/-- The two data members of `class BitArray`. -/
structure BitArray where
  data : List Nat
  bit_count : Int
  deriving DecidableEq, Repr

/-- What a mutating member function leaves behind: the exception it raised
(`none` when it returned) and the object as it is at that moment. -/
structure Outcome where
  raised : Option Exn
  state : BitArray
  deriving DecidableEq, Repr

namespace BitArray

/-- Read `data[i]`. -/
def load (d : List Nat) (i : Int) : Except Exn Nat :=
  if i < 0 then .error .undefined_access
  else
    match d.get? i.toNat with
    | some b => .ok b
    | none => .error .undefined_access

/-- Write `data[i] = b`, narrowing `b` to `unsigned char`. -/
def store (d : List Nat) (i : Int) (b : Nat) : Except Exn (List Nat) :=
  if i < 0 then .error .undefined_access
  else if i.toNat < d.length then .ok (d.set i.toNat (b % 256))
  else .error .undefined_access

/-- The largest value of a 32-bit `int`. -/
def INT_MAX : Int :=
  2147483647

/-- The value an `int` expression takes when its mathematical value is `x`:
32-bit two's-complement wrap-around. -/
def wrapInt (x : Int) : Int :=
  (x + 2147483648) % 4294967296 - 2147483648

/-- The call `data.resize(n)` of `std::vector` for a size `n`: truncate, or
append value-initialised (zero) bytes. -/
def vecResize (d : List Nat) (n : Nat) : List Nat :=
  d.take n ++ List.replicate (n - d.length) 0

/-- The call `data.resize(n)` with `n` an `int`: the argument is converted to
`size_type`, so a negative `n` asks for more than `max_size()` elements and
the call throws `std::length_error` without changing the vector. -/
def vecResizeInt (d : List Nat) (n : Int) : Except Exn (List Nat) :=
  if n < 0 then .error .length_error else .ok (vecResize d n.toNat)

/-- `for (i = start; ...; ++i) body`, run `k` times, stopping at the first
exception. -/
def loopUp (body : Int → BitArray → Outcome) : Nat → Int → BitArray → Outcome
  | 0, _, v => ⟨none, v⟩
  | k + 1, i, v =>
    match body i v with
    | ⟨none, v1⟩ => loopUp body k (i + 1) v1
    | ⟨some e, v1⟩ => ⟨some e, v1⟩

/-- `for (i = start; ...; --i) body`, run `k` times, stopping at the first
exception. -/
def loopDown (body : Int → BitArray → Outcome) : Nat → Int → BitArray → Outcome
  | 0, _, v => ⟨none, v⟩
  | k + 1, i, v =>
    match body i v with
    | ⟨none, v1⟩ => loopDown body k (i - 1) v1
    | ⟨some e, v1⟩ => ⟨some e, v1⟩

/-- `for (int i = lo; i < hi; ++i) body`. -/
def forUp (body : Int → BitArray → Outcome) (lo hi : Int) (v : BitArray) : Outcome :=
  loopUp body (hi - lo).toNat lo v

/-- `for (int i = hi; i >= lo; --i) body`. -/
def forDown (body : Int → BitArray → Outcome) (hi lo : Int) (v : BitArray) : Outcome :=
  loopDown body (hi - lo + 1).toNat hi v

def getByteIndex (bit_index : Int) : Int :=
  Int.tdiv bit_index 8

def getBitInByte (bit_index : Int) : Int :=
  Int.tmod bit_index 8

def checkIndex (v : BitArray) (index : Int) : Except Exn Unit :=
  if index < 0 ∨ index ≥ v.bit_count then .error .out_of_range else .ok ()

def checkSameSize (v other : BitArray) : Except Exn Unit :=
  if v.bit_count ≠ other.bit_count then .error .invalid_argument else .ok ()

/-- `BitArray()`. -/
def empty_ctor : BitArray :=
  ⟨[], 0⟩

/-- Body of the constructor's loop: `data[i] = (value >> (i * 8)) & 0xFF`. -/
def ctorBody (value : Nat) (i : Int) (v : BitArray) : Outcome :=
  match store v.data i ((value >>> (i * 8).toNat) &&& 0xFF) with
  | .ok d => ⟨none, { v with data := d }⟩
  | .error e => ⟨some e, v⟩

/-- `BitArray(int num_bits, unsigned long value)`, with `sizeof_ulong` the
width of `unsigned long` in bytes.  The loop condition
`i < sizeof(unsigned long) && i < byte_count` bounds `i` by the smaller of the
two. -/
def ctor (sizeof_ulong : Nat) (num_bits : Int) (value : Nat := 0) : Except Exn BitArray :=
  if num_bits < 0 then .error .invalid_argument
  else
    let byte_count := Int.tdiv (wrapInt (num_bits + 7)) 8
    match vecResizeInt [] byte_count with
    | .error e => .error e
    | .ok d =>
      let v : BitArray := ⟨d, num_bits⟩
      if num_bits > 0 then
        match forUp (ctorBody value) 0 (min (sizeof_ulong : Int) byte_count) v with
        | ⟨none, v1⟩ => .ok v1
        | ⟨some e, _⟩ => .error e
      else .ok v

/-- The bit pattern of `~x` for a 32-bit `int` `x`. -/
def bitNot32 (x : Nat) : Nat :=
  2 ^ 32 - 1 - x % 2 ^ 32

/-- `operator[]`. -/
def get (v : BitArray) (index : Int) : Except Exn Bool :=
  match v.checkIndex index with
  | .error e => .error e
  | .ok _ =>
    let byte_idx := getByteIndex index
    let bit_idx := getBitInByte index
    match load v.data byte_idx with
    | .error e => .error e
    | .ok b => .ok (((b >>> bit_idx.toNat) &&& 1) != 0)

def size (v : BitArray) : Int :=
  v.bit_count

def empty (v : BitArray) : Bool :=
  v.bit_count == 0

/-- `set(int index, bool value)`. -/
def set (v : BitArray) (index : Int) (value : Bool := true) : Outcome :=
  match v.checkIndex index with
  | .error e => ⟨some e, v⟩
  | .ok _ =>
    let byte_idx := getByteIndex index
    let bit_idx := getBitInByte index
    match load v.data byte_idx with
    | .error e => ⟨some e, v⟩
    | .ok b =>
      let nb : Nat :=
        if value then b ||| (1 <<< bit_idx.toNat)
        else b &&& bitNot32 (1 <<< bit_idx.toNat)
      match store v.data byte_idx nb with
      | .error e => ⟨some e, v⟩
      | .ok d => ⟨none, { v with data := d }⟩

/-- `reset(int index)`. -/
def reset (v : BitArray) (index : Int) : Outcome :=
  v.set index false

/-- `reset()`: `std::fill(data.begin(), data.end(), 0x00)`. -/
def reset_all (v : BitArray) : Outcome :=
  ⟨none, { v with data := v.data.map (fun _ => 0x00) }⟩

/-- The masking block shared by `resize`, `set()` and `operator~`:
`if (bit_count > 0) { last_bit = bit_count % 8; if (last_bit != 0)
data.back() &= (1 << last_bit) - 1; }`. -/
def maskLast (v : BitArray) : Outcome :=
  if v.bit_count > 0 then
    let last_bit := Int.tmod v.bit_count 8
    if last_bit ≠ 0 then
      let mask : Nat := ((1 <<< last_bit.toNat) - 1) % 256
      let back : Int := (v.data.length : Int) - 1
      match load v.data back with
      | .error e => ⟨some e, v⟩
      | .ok b =>
        match store v.data back (b &&& mask) with
        | .error e => ⟨some e, v⟩
        | .ok d => ⟨none, { v with data := d }⟩
    else ⟨none, v⟩
  else ⟨none, v⟩

/-- Body of the fill loop of `resize`: `data[i] = fill_value`. -/
def fillBody (fill_value : Nat) (i : Int) (v : BitArray) : Outcome :=
  match store v.data i fill_value with
  | .ok d => ⟨none, { v with data := d }⟩
  | .error e => ⟨some e, v⟩

/-- `resize(int new_size, bool value)`. -/
def resize (v : BitArray) (new_size : Int) (value : Bool := false) : Outcome :=
  if new_size < 0 then ⟨some .invalid_argument, v⟩
  else
    let new_byte_count := Int.tdiv (wrapInt (new_size + 7)) 8
    let old_byte_count : Int := v.data.length
    match vecResizeInt v.data new_byte_count with
    | .error e => ⟨some e, v⟩
    | .ok d =>
      let v1 : BitArray := { v with data := d }
      let filled : Outcome :=
        if new_byte_count > old_byte_count then
          let fill_value : Nat := if value then 0xFF else 0x00
          forUp (fillBody fill_value) old_byte_count new_byte_count v1
        else ⟨none, v1⟩
      match filled with
      | ⟨some e, v2⟩ => ⟨some e, v2⟩
      | ⟨none, v2⟩ => maskLast { v2 with bit_count := new_size }

/-- `set()`: `std::fill(data.begin(), data.end(), 0xFF)`, then the masking
block. -/
def set_all (v : BitArray) : Outcome :=
  maskLast { v with data := v.data.map (fun _ => 0xFF) }

/-- `swap(BitArray& other)`: the pair of objects after the call. -/
def swap (v other : BitArray) : BitArray × BitArray :=
  (other, v)

/-- `clear()`. -/
def clear (_v : BitArray) : Outcome :=
  ⟨none, ⟨[], 0⟩⟩

/-- `push_back(bool bit)`. -/
def push_back (v : BitArray) (bit : Bool) : Outcome :=
  match v.resize (wrapInt (v.bit_count + 1)) false with
  | ⟨some e, v1⟩ => ⟨some e, v1⟩
  | ⟨none, v1⟩ => v1.set (v1.bit_count - 1) bit

/-- Body of the loops of `&=`, `|=`, `^=`: `data[i] op= other.data[i]`. -/
def bytewiseBody (op : Nat → Nat → Nat) (other : BitArray) (i : Int) (v : BitArray) : Outcome :=
  match load v.data i with
  | .error e => ⟨some e, v⟩
  | .ok x =>
    match load other.data i with
    | .error e => ⟨some e, v⟩
    | .ok y =>
      match store v.data i (op x y) with
      | .error e => ⟨some e, v⟩
      | .ok d => ⟨none, { v with data := d }⟩

/-- The common shape of `operator&=`, `operator|=`, `operator^=`. -/
def bytewiseAssign (op : Nat → Nat → Nat) (v other : BitArray) : Outcome :=
  match v.checkSameSize other with
  | .error e => ⟨some e, v⟩
  | .ok _ => forUp (bytewiseBody op other) 0 v.data.length v

/-- `operator&=`. -/
def andAssign (v other : BitArray) : Outcome :=
  bytewiseAssign (fun x y => x &&& y) v other

/-- `operator|=`. -/
def orAssign (v other : BitArray) : Outcome :=
  bytewiseAssign (fun x y => x ||| y) v other

/-- `operator^=`. -/
def xorAssign (v other : BitArray) : Outcome :=
  bytewiseAssign (fun x y => x ^^^ y) v other

/-- A function that copies its operand, mutates the copy and returns it:
an exception discards the copy. -/
def returned (o : Outcome) : Except Exn BitArray :=
  match o with
  | ⟨none, r⟩ => .ok r
  | ⟨some e, _⟩ => .error e

/-- Free `operator&`. -/
def op_and (a b : BitArray) : Except Exn BitArray :=
  returned (a.andAssign b)

/-- Free `operator|`. -/
def op_or (a b : BitArray) : Except Exn BitArray :=
  returned (a.orAssign b)

/-- Free `operator^`. -/
def op_xor (a b : BitArray) : Except Exn BitArray :=
  returned (a.xorAssign b)

/-- Body of the copy loop of `operator<<=`: `set(i, (*this)[i - n])`. -/
def shlBody (n : Int) (i : Int) (v : BitArray) : Outcome :=
  match v.get (i - n) with
  | .error e => ⟨some e, v⟩
  | .ok b => v.set i b

/-- Body of the clearing loops of the shifts: `set(i, false)`. -/
def clearBody (i : Int) (v : BitArray) : Outcome :=
  v.set i false

/-- `operator<<=`. -/
def shlAssign (v : BitArray) (n : Int) : Outcome :=
  if n < 0 then ⟨some .invalid_argument, v⟩
  else if n ≥ v.bit_count then v.reset_all
  else
    match forDown (shlBody n) (v.bit_count - 1) n v with
    | ⟨some e, v1⟩ => ⟨some e, v1⟩
    | ⟨none, v1⟩ => forUp clearBody 0 n v1

/-- Body of the copy loop of `operator>>=`: `set(i, (*this)[i + n])`. -/
def shrBody (n : Int) (i : Int) (v : BitArray) : Outcome :=
  match v.get (i + n) with
  | .error e => ⟨some e, v⟩
  | .ok b => v.set i b

/-- `operator>>=`. -/
def shrAssign (v : BitArray) (n : Int) : Outcome :=
  if n < 0 then ⟨some .invalid_argument, v⟩
  else if n ≥ v.bit_count then v.reset_all
  else
    match forUp (shrBody n) 0 (v.bit_count - n) v with
    | ⟨some e, v1⟩ => ⟨some e, v1⟩
    | ⟨none, v1⟩ => forUp clearBody (v1.bit_count - n) v1.bit_count v1

/-- `operator<<`. -/
def shl (v : BitArray) (n : Int) : Except Exn BitArray :=
  returned (v.shlAssign n)

/-- `operator>>`. -/
def shr (v : BitArray) (n : Int) : Except Exn BitArray :=
  returned (v.shrAssign n)

/-- `any()`: the range-for over the bytes. -/
def any (v : BitArray) : Bool :=
  v.data.any (fun byte => byte != 0)

/-- `none()`. -/
def none (v : BitArray) : Bool :=
  !v.any

/-- The loop of `to_string`, `k` iterations left, at index `i`. -/
def to_string_loop (v : BitArray) : Nat → Int → String → Except Exn String
  | 0, _, result => .ok result
  | k + 1, i, result =>
    match v.get i with
    | .error e => .error e
    | .ok b => to_string_loop v k (i - 1) (result.push (if b then '1' else '0'))

/-- `to_string()`: `for (int i = bit_count - 1; i >= 0; --i)`. -/
def to_string (v : BitArray) : Except Exn String :=
  to_string_loop v (v.bit_count - 1 - 0 + 1).toNat (v.bit_count - 1) ""

/-- The loop of `operator==`, `k` iterations left, at index `i`. -/
def eq_loop (a b : BitArray) : Nat → Int → Except Exn Bool
  | 0, _ => .ok true
  | k + 1, i =>
    match a.get i with
    | .error e => .error e
    | .ok x =>
      match b.get i with
      | .error e => .error e
      | .ok y => if x != y then .ok false else eq_loop a b k (i + 1)

/-- Free `operator==`. -/
def op_eq (a b : BitArray) : Except Exn Bool :=
  if a.size ≠ b.size then .ok false
  else eq_loop a b (a.size - 0).toNat 0

/-- Free `operator!=`. -/
def op_ne (a b : BitArray) : Except Exn Bool :=
  match op_eq a b with
  | .error e => .error e
  | .ok r => .ok (!r)

/-- `operator~`: copy, invert every byte (`byte = ~byte`, narrowed to
`unsigned char`), then the masking block on the copy. -/
def complement (v : BitArray) : Except Exn BitArray :=
  returned (maskLast { v with data := v.data.map (fun byte => bitNot32 byte % 256) })

/-- The inner loop of `count()`: `while (b) { result += (b & 1); b >>= 1; }`,
with `b` an `unsigned char` and `result` an `int`. -/
def count_while (b : Nat) (result : Int) : Int :=
  if b ≠ 0 then count_while ((b >>> 1) % 256) (result + ((b &&& 1 : Nat) : Int)) else result
termination_by b
decreasing_by omega

/-- `count()`: the range-for over the bytes, `result` starting at `0`. -/
def count (v : BitArray) : Int :=
  v.data.foldl (fun result byte => count_while byte result) 0

/-- Typing of the storage: every element of `data` is an `unsigned char`. -/
def Bytes (v : BitArray) : Prop :=
  ∀ b ∈ v.data, b < 256

/-- The number of `1` bits among the eight bits of a byte. -/
def onesInByte (b : Nat) : Nat :=
  (List.range 8).countP (fun t => b.testBit t)

/-- Invariant I2: the size is not negative and the storage length is
`ceil(bit_count / 8)`, the least number of bytes that hold `bit_count` bits. -/
def Sized (v : BitArray) : Prop :=
  0 ≤ v.bit_count ∧ v.bit_count ≤ 8 * (v.data.length : Int) ∧
    8 * (v.data.length : Int) < v.bit_count + 8

instance (v : BitArray) : Decidable v.Sized := by
  unfold Sized
  infer_instance

/-- Bit `j` of the raw storage: bit `j % 8` of byte `j / 8` (`false` past the
end). -/
def storageBit (d : List Nat) (j : Nat) : Bool :=
  (d.getD (j / 8) 0).testBit (j % 8)

/-- Invariant I1: every storage bit at a position `≥ bit_count` is zero. -/
def PaddingZero (v : BitArray) : Prop :=
  ∀ j : Nat, v.bit_count ≤ (j : Int) → storageBit v.data j = false

end BitArray

namespace Gaoler

open BitArray hiding none get

/-! ## Arithmetic of indices -/

theorem getByteIndex_nat (j : Nat) : getByteIndex (j : Int) = ((j / 8 : Nat) : Int) := by
  simp [getByteIndex, Int.tdiv]

theorem getBitInByte_nat (j : Nat) : getBitInByte (j : Int) = ((j % 8 : Nat) : Int) := by
  simp [getBitInByte, Int.tmod]

theorem tdiv_add_seven (n : Int) (h : 0 ≤ n) (len : Nat) :
    ((len : Int) = Int.tdiv (n + 7) 8) ↔ (n ≤ 8 * (len : Int) ∧ 8 * (len : Int) < n + 8) := by
  rw [Int.tdiv_eq_ediv (by omega) (by omega)]
  omega

theorem wrapInt_id (x : Int) (h1 : -2147483648 ≤ x) (h2 : x ≤ 2147483647) :
    wrapInt x = x := by
  unfold wrapInt
  omega

theorem wrapInt_range (x : Int) : -2147483648 ≤ wrapInt x ∧ wrapInt x ≤ 2147483647 := by
  unfold wrapInt
  omega

theorem wrapInt_overflow (x : Int) (h1 : 2147483648 ≤ x) (h2 : x ≤ 2147483654) :
    Int.tdiv (wrapInt x) 8 < 0 := by
  have e : wrapInt x = x - 4294967296 := by
    unfold wrapInt
    omega
  rw [e]
  have h3 : Int.tdiv (x - 4294967296) 8 = -(Int.tdiv (4294967296 - x) 8) := by
    rw [← Int.neg_tdiv]
    congr 1
    omega
  rw [h3, Int.tdiv_eq_ediv (by omega) (by omega)]
  omega

theorem wrapInt_big (x : Int) (h : 2147483648 ≤ x) : wrapInt x ≤ x - 4294967296 := by
  unfold wrapInt
  omega

theorem tdiv_eight_le (x : Int) (k : Nat) (h : Int.tdiv x 8 = (k : Int)) (b : Int)
    (h0 : 0 ≤ b) (hx : x ≤ b) : 8 * (k : Int) ≤ b := by
  by_cases hpos : 0 ≤ x
  · rw [Int.tdiv_eq_ediv hpos (by omega)] at h
    omega
  · have e : Int.tdiv x 8 = -(Int.tdiv (-x) 8) := by
      rw [← Int.neg_tdiv, Int.neg_neg]
    rw [e, Int.tdiv_eq_ediv (by omega) (by omega)] at h
    omega

theorem byte_in_range {v : BitArray} (hs : Sized v) {j : Nat} (hj : (j : Int) < v.bit_count) :
    j / 8 < v.data.length := by
  obtain ⟨_, h1, _⟩ := hs
  omega

/-! ## Raw storage accesses -/

theorem load_nat (d : List Nat) (i : Nat) (h : i < d.length) :
    load d (i : Int) = .ok (d.getD i 0) := by
  have h0 : ¬ ((i : Int) < 0) := by omega
  simp [load, h0, List.get?_eq_get h, List.getD_eq_getElem?_getD, List.getElem?_eq_getElem h]

theorem store_nat (d : List Nat) (i : Nat) (b : Nat) (h : i < d.length) :
    store d (i : Int) b = .ok (d.set i (b % 256)) := by
  have h0 : ¬ ((i : Int) < 0) := by omega
  simp [store, h0, h]

theorem storageBit_set (d : List Nat) (i : Nat) (hi : i < d.length) (b m : Nat) :
    storageBit (d.set i b) m = if m / 8 = i then b.testBit (m % 8) else storageBit d m := by
  unfold storageBit
  by_cases hm : m / 8 = i
  · subst hm
    simp [List.getD_eq_getElem?_getD, List.getElem?_set_self, hi]
  · have hne : i ≠ m / 8 := fun h => hm h.symm
    simp [hm, List.getD_eq_getElem?_getD, List.getElem?_set_ne hne]

theorem testBit_read (b k : Nat) : (((b >>> k) &&& 1) != 0) = b.testBit k := by
  simp [Nat.testBit, Nat.and_comm]

theorem testBit_bitNot32 (k t : Nat) (hk : k < 8) (ht : t < 8) :
    (bitNot32 (1 <<< k)).testBit t = decide (t ≠ k) := by
  have hlt : 2 ^ k < 2 ^ 32 := Nat.pow_lt_pow_right (by decide) (by omega)
  have hpos : 0 < 2 ^ k := Nat.pos_pow_of_pos _ (by decide)
  have e : bitNot32 (1 <<< k) = 2 ^ 32 - (2 ^ k + 1) := by
    simp only [bitNot32, Nat.one_shiftLeft, Nat.mod_eq_of_lt hlt]
    omega
  have ht32 : t < 32 := by omega
  rw [e, Nat.testBit_two_pow_sub_succ hlt, Nat.testBit_two_pow]
  by_cases h : t = k
  · subst h; simp
  · have h2 : ¬ k = t := fun h3 => h h3.symm
    simp [h, h2, ht32]

theorem testBit_setByte (b k t : Nat) (hk : k < 8) (ht : t < 8) (val : Bool) :
    ((if val then b ||| (1 <<< k) else b &&& bitNot32 (1 <<< k)) % 256).testBit t
      = if t = k then val else b.testBit t := by
  have e : (256 : Nat) = 2 ^ 8 := by norm_num
  rw [e, Nat.testBit_mod_two_pow]
  cases val
  · simp only [Bool.false_eq_true, if_false, Nat.testBit_and, testBit_bitNot32 k t hk ht]
    by_cases h : t = k <;> simp [h, ht]
  · simp only [if_true, Nat.testBit_or, Nat.one_shiftLeft, Nat.testBit_two_pow]
    by_cases h : t = k
    · subst h; simp [ht]
    · have h2 : ¬ k = t := fun h3 => h h3.symm
      simp [h, h2, ht]

/-! ## Single-bit access on an in-range index -/

theorem get_nat {v : BitArray} {j : Nat} (hb : j / 8 < v.data.length)
    (hj : (j : Int) < v.bit_count) : v.get j = .ok (storageBit v.data j) := by
  have h0 : ¬ ((j : Int) < 0 ∨ (j : Int) ≥ v.bit_count) := by omega
  simp only [BitArray.get, checkIndex, h0, if_false, getByteIndex_nat, getBitInByte_nat,
    load_nat _ _ hb, Int.toNat_ofNat, testBit_read, storageBit]

theorem set_nat {v : BitArray} {j : Nat} (hb : j / 8 < v.data.length)
    (hj : (j : Int) < v.bit_count) (val : Bool) :
    ∃ d, v.set j val = ⟨none, ⟨d, v.bit_count⟩⟩ ∧ d.length = v.data.length ∧
      ∀ m, storageBit d m = if m = j then val else storageBit v.data m := by
  have h0 : ¬ ((j : Int) < 0 ∨ (j : Int) ≥ v.bit_count) := by omega
  refine ⟨v.data.set (j / 8) ((if val then v.data.getD (j / 8) 0 ||| (1 <<< (j % 8))
    else v.data.getD (j / 8) 0 &&& bitNot32 (1 <<< (j % 8))) % 256), ?_, ?_, ?_⟩
  · simp only [BitArray.set, checkIndex, h0, if_false, getByteIndex_nat, getBitInByte_nat,
      load_nat _ _ hb, store_nat _ _ _ hb, Int.toNat_ofNat]
  · simp
  · intro m
    rw [storageBit_set _ _ hb]
    by_cases h8 : m / 8 = j / 8
    · rw [if_pos h8, testBit_setByte _ _ _ (Nat.mod_lt _ (by decide)) (Nat.mod_lt _ (by decide))]
      by_cases hm : m = j
      · subst hm; simp
      · have h7 : ¬ m % 8 = j % 8 := by omega
        simp only [h7, hm, if_false, storageBit, h8]
    · have hm : ¬ m = j := fun h => h8 (by rw [h])
      simp [h8, hm]

/-! ## Loops that write the bytes of a range one by one -/

theorem loopUp_bytes (body : Int → BitArray → Outcome) (F : Nat → Nat → Nat) (P : Nat → Prop)
    (hbody : ∀ (i : Nat) (v : BitArray), i < v.data.length → P i →
      body i v = ⟨none, ⟨v.data.set i (F i (v.data.getD i 0)), v.bit_count⟩⟩) :
    ∀ (k s : Nat) (v : BitArray), s + k ≤ v.data.length → (∀ i, s ≤ i → i < s + k → P i) →
      ∃ d, loopUp body k s v = ⟨none, ⟨d, v.bit_count⟩⟩ ∧ d.length = v.data.length ∧
        ∀ m, d.getD m 0 = if s ≤ m ∧ m < s + k then F m (v.data.getD m 0) else v.data.getD m 0 := by
  intro k
  induction k with
  | zero =>
    intro s v _ _
    refine ⟨v.data, rfl, rfl, ?_⟩
    intro m
    have : ¬ (s ≤ m ∧ m < s + 0) := by omega
    rw [if_neg this]
  | succ k ih =>
    intro s v hlen hP
    have hs : s < v.data.length := by omega
    have hb := hbody s v hs (hP s (le_refl _) (by omega))
    obtain ⟨d, hd, hdl, hdm⟩ := ih (s + 1)
      ⟨v.data.set s (F s (v.data.getD s 0)), v.bit_count⟩
      (by simp only [List.length_set]; omega)
      (fun i h1 h2 => hP i (by omega) (by omega))
    refine ⟨d, ?_, ?_, ?_⟩
    · simp only [loopUp, hb]
      exact_mod_cast hd
    · simpa using hdl
    · intro m
      rw [hdm m]
      simp only [List.getD_eq_getElem?_getD]
      by_cases hm : m = s
      · subst hm
        have h1 : ¬ (m + 1 ≤ m ∧ m < m + 1 + k) := by omega
        have h2 : m ≤ m ∧ m < m + (k + 1) := by omega
        simp [h1, h2, List.getElem?_set_self, hs]
      · have hne : s ≠ m := fun h => hm h.symm
        have h3 : (s + 1 ≤ m ∧ m < s + 1 + k) ↔ (s ≤ m ∧ m < s + (k + 1)) := by omega
        simp only [h3, List.getElem?_set_ne hne]

/-! ## The constructor -/

theorem vecResize_nil (n : Nat) : vecResize [] n = List.replicate n 0 := by
  simp [vecResize]

theorem ctorBody_nat (value : Nat) (i : Nat) (v : BitArray) (hi : i < v.data.length) :
    ctorBody value i v
      = ⟨none, ⟨v.data.set i ((fun m _ => ((value >>> (8 * m)) &&& 0xFF) % 256) i
          (v.data.getD i 0)), v.bit_count⟩⟩ := by
  have e : ((i : Int) * 8).toNat = 8 * i := by omega
  simp only [ctorBody, store_nat _ _ _ hi, e]

theorem ctor_ok (w : Nat) (num_bits : Int) (value : Nat) (h : 0 ≤ num_bits)
    (hmax : num_bits ≤ INT_MAX - 7) :
    ∃ d, ctor w num_bits value = .ok ⟨d, num_bits⟩ ∧
      (num_bits ≤ 8 * (d.length : Int) ∧ 8 * (d.length : Int) < num_bits + 8) ∧
      ∀ m, d.getD m 0 = if m < min w d.length then (value >>> (8 * m)) &&& 0xFF else 0 := by
  obtain ⟨bc, hbc⟩ : ∃ bc : Nat, (bc : Int) = Int.tdiv (num_bits + 7) 8 := by
    refine ⟨(Int.tdiv (num_bits + 7) 8).toNat, ?_⟩
    rw [Int.tdiv_eq_ediv (by omega) (by omega)]
    omega
  have hchar := (tdiv_add_seven num_bits h bc).1 hbc
  have hneg : ¬ num_bits < 0 := by omega
  have hwrap : wrapInt (num_bits + 7) = num_bits + 7 := by
    simp only [INT_MAX] at hmax
    exact wrapInt_id _ (by omega) (by omega)
  have hnn : ¬ ((bc : Int) < 0) := by omega
  by_cases hpos : num_bits > 0
  · have hk : (min (w : Int) (bc : Int) - 0).toNat = min w bc := by omega
    obtain ⟨d, hd, hdl, hdm⟩ := loopUp_bytes (ctorBody value)
      (fun m _ => ((value >>> (8 * m)) &&& 0xFF) % 256) (fun _ => True)
      (fun i v hi _ => ctorBody_nat value i v hi) (min w bc) 0
      ⟨List.replicate bc 0, num_bits⟩ (by simp) (fun _ _ _ => trivial)
    have hdl2 : d.length = bc := by simpa using hdl
    refine ⟨d, ?_, ?_, ?_⟩
    · simp only [ctor, hneg, if_false, hwrap, ← hbc, vecResizeInt, hnn, hpos, if_true,
        Int.toNat_ofNat, vecResize_nil, forUp, hk]
      have hd2 := hd
      simp only [Nat.cast_zero] at hd2
      rw [hd2]
    · rw [hdl2]; exact hchar
    · intro m
      rw [hdm m, hdl2]
      by_cases hm : m < min w bc
      · have h1 : 0 ≤ m ∧ m < 0 + min w bc := by omega
        have h2 : (value >>> (8 * m)) &&& 0xFF < 256 :=
          Nat.lt_of_le_of_lt Nat.and_le_right (by norm_num)
        simp only [h1, hm, and_self, if_true, Nat.mod_eq_of_lt h2]
      · have h1 : ¬ (0 ≤ m ∧ m < 0 + min w bc) := by omega
        simp only [h1, hm, if_false, List.getD_eq_getElem?_getD, List.getElem?_replicate]
        split <;> rfl
  · have h0 : num_bits = 0 := by omega
    subst h0
    have hbc0 : bc = 0 := by omega
    subst hbc0
    refine ⟨[], ?_, by simp, ?_⟩
    · simp only [ctor, hneg, if_false, hwrap, ← hbc, vecResizeInt, hnn, hpos,
        Int.toNat_ofNat, vecResize_nil]
      rfl
    · intro m
      simp

theorem ctor_bits (w : Nat) (value : Nat) (d : List Nat)
    (hdm : ∀ m, d.getD m 0 = if m < min w d.length then (value >>> (8 * m)) &&& 0xFF else 0)
    (i : Nat) (hi : i / 8 < d.length) :
    storageBit d i = (decide (i < 8 * w) && value.testBit i) := by
  unfold storageBit
  rw [hdm]
  by_cases hm : i / 8 < min w d.length
  · have h1 : i < 8 * w := by omega
    have h2 : 8 * (i / 8) + i % 8 = i := by omega
    have h3 : i % 8 < 8 := Nat.mod_lt _ (by decide)
    have e : (0xFF : Nat) = 2 ^ 8 - 1 := by norm_num
    rw [if_pos hm, Nat.testBit_and, Nat.testBit_shiftRight, h2, e, Nat.testBit_two_pow_sub_one]
    simp [h1, h3]
  · have h1 : ¬ i < 8 * w := by omega
    simp [hm, h1]

theorem ctor_overflow (w : Nat) (num_bits : Int) (value : Nat)
    (h1 : INT_MAX - 7 < num_bits) (h2 : num_bits ≤ INT_MAX) :
    ctor w num_bits value = .error .length_error := by
  simp only [INT_MAX] at h1 h2
  have hneg : ¬ num_bits < 0 := by omega
  have hlt := wrapInt_overflow (num_bits + 7) (by omega) (by omega)
  simp only [ctor, hneg, if_false, vecResizeInt, hlt, if_true]

/-- C1, as the code has it: `BitArray(num_bits, value)` raises `invalid_argument` for
`num_bits < 0`; for `0 ≤ num_bits ≤ INT_MAX - 7` it succeeds with `size() = num_bits`,
`ceil(num_bits / 8)` storage bytes, byte `i` equal to `(value >> 8 * i) & 0xFF` for
`i < min(sizeof(unsigned long), byte_count)` and `0` elsewhere (the last partial byte is not
masked), so that `operator[]` at `i < num_bits` reads bit `i` of `value` when
`i < 8 * sizeof(unsigned long)` and `0` otherwise; all bits are `0` for the default value
`0`. -/
theorem ctor_spec (w : Nat) (num_bits : Int) (value : Nat) :
    (num_bits < 0 → ctor w num_bits value = .error .invalid_argument) ∧
    (0 ≤ num_bits → num_bits ≤ INT_MAX - 7 →
      ∃ v, ctor w num_bits value = .ok v ∧ v.size = num_bits ∧
      (num_bits ≤ 8 * (v.data.length : Int) ∧ 8 * (v.data.length : Int) < num_bits + 8) ∧
      (∀ i, i < v.data.length → v.data[i]? =
        some (if i < min w v.data.length then (value >>> (8 * i)) &&& 0xFF else 0)) ∧
      (∀ i : Nat, (i : Int) < num_bits →
        v.get i = .ok (decide (i < 8 * w) && value.testBit i)) ∧
      (value = 0 → ∀ i : Nat, (i : Int) < num_bits → v.get i = .ok false)) := by
  constructor
  · intro h
    simp [ctor, h]
  · intro h hmax
    obtain ⟨d, hd, hlen, hdm⟩ := ctor_ok w num_bits value h hmax
    have hbits : ∀ i : Nat, (i : Int) < num_bits →
        BitArray.get ⟨d, num_bits⟩ i = .ok (decide (i < 8 * w) && value.testBit i) := by
      intro i hi
      have hb : i / 8 < d.length := by omega
      rw [get_nat (v := ⟨d, num_bits⟩) hb hi]
      exact congrArg Except.ok (ctor_bits w value d hdm i hb)
    refine ⟨⟨d, num_bits⟩, hd, rfl, hlen, ?_, hbits, ?_⟩
    · intro i hi
      have := hdm i
      rw [List.getD_eq_getElem?_getD, List.getElem?_eq_getElem hi] at this
      rw [List.getElem?_eq_getElem hi]
      exact congrArg some this
    · intro hv i hi
      rw [hbits i hi, hv]
      simp

theorem ctor_spec_witness :
    ∃ v, ctor 8 3 0xFF = .ok v ∧ v.size = 3 ∧
      ((3 : Int) ≤ 8 * (v.data.length : Int) ∧ 8 * (v.data.length : Int) < 3 + 8) ∧
      (∀ i, i < v.data.length → v.data[i]? =
        some (if i < min 8 v.data.length then (0xFF >>> (8 * i)) &&& 0xFF else 0)) ∧
      (∀ i : Nat, (i : Int) < 3 →
        v.get i = .ok (decide (i < 8 * 8) && (0xFF : Nat).testBit i)) ∧
      ((0xFF : Nat) = 0 → ∀ i : Nat, (i : Int) < 3 → v.get i = .ok false) :=
  (ctor_spec 8 3 0xFF).2 (by decide) (by decide)

/-- C1 as stated fails: `BitArray(INT_MAX)` has `num_bits ≥ 0`, yet `num_bits + 7` leaves
the range of `int`, the byte count comes out negative and `data.resize` throws
`std::length_error`, so the constructor does not succeed. -/
theorem ctor_spec_counterexample :
    (0 : Int) ≤ 2147483647 ∧ ctor 8 2147483647 0 = .error .length_error ∧
      ¬ ∃ v, ctor 8 2147483647 0 = .ok v := by
  have h : ctor 8 2147483647 0 = .error .length_error :=
    ctor_overflow 8 2147483647 0 (by decide) (by decide)
  refine ⟨by decide, h, ?_⟩
  rintro ⟨v, hv⟩
  rw [h] at hv
  cases hv

/-! ## `set(index, value)`, `reset(index)` and the index check -/

/-- C2: on a vector with `ceil(bit_count / 8)` storage bytes and an index in `[0, size())`,
`set(index, value)` returns normally, makes `v[index] == value`, leaves every other in-range
bit, the size, the storage length and the padding bits as they were; `reset(index)` is
`set(index, false)`. -/
theorem set_spec (v : BitArray) (index : Int) (value : Bool) (hs : Sized v)
    (h0 : 0 ≤ index) (h1 : index < v.size) :
    (v.set index value).raised = none ∧
    (v.set index value).state.get index = .ok value ∧
    (∀ j : Int, 0 ≤ j → j < v.size → j ≠ index →
      (v.set index value).state.get j = v.get j) ∧
    (v.set index value).state.size = v.size ∧
    (v.set index value).state.data.length = v.data.length ∧
    (∀ m : Nat, v.bit_count ≤ (m : Int) →
      storageBit (v.set index value).state.data m = storageBit v.data m) ∧
    v.reset index = v.set index false := by
  obtain ⟨n, rfl⟩ := Int.eq_ofNat_of_zero_le h0
  have hb : n / 8 < v.data.length := byte_in_range hs h1
  obtain ⟨d, hd, hdl, hdm⟩ := set_nat hb h1 value
  rw [hd]
  refine ⟨rfl, ?_, ?_, rfl, hdl, ?_, rfl⟩
  · rw [get_nat (v := ⟨d, v.bit_count⟩) (by simpa [hdl] using hb) h1]
    simp [hdm]
  · intro j hj0 hj1 hne
    obtain ⟨m, rfl⟩ := Int.eq_ofNat_of_zero_le hj0
    have hbm : m / 8 < v.data.length := byte_in_range hs hj1
    have hmn : m ≠ n := fun h => hne (by rw [h])
    rw [get_nat (v := ⟨d, v.bit_count⟩) (by simpa [hdl] using hbm) hj1, get_nat hbm hj1]
    simp [hdm, hmn]
  · intro m hm
    have hmn : m ≠ n := by
      intro h
      subst h
      simp only [BitArray.size] at h1
      omega
    simp [hdm, hmn]

theorem set_spec_witness :
    (BitArray.set ⟨[0x05], 3⟩ 1 true).raised = none ∧
    (BitArray.set ⟨[0x05], 3⟩ 1 true).state.get 1 = .ok true ∧
    (∀ j : Int, 0 ≤ j → j < (⟨[0x05], 3⟩ : BitArray).size → j ≠ 1 →
      (BitArray.set ⟨[0x05], 3⟩ 1 true).state.get j = (⟨[0x05], 3⟩ : BitArray).get j) ∧
    (BitArray.set ⟨[0x05], 3⟩ 1 true).state.size = (⟨[0x05], 3⟩ : BitArray).size ∧
    (BitArray.set ⟨[0x05], 3⟩ 1 true).state.data.length = (⟨[0x05], 3⟩ : BitArray).data.length ∧
    (∀ m : Nat, (⟨[0x05], 3⟩ : BitArray).bit_count ≤ (m : Int) →
      storageBit (BitArray.set ⟨[0x05], 3⟩ 1 true).state.data m
        = storageBit (⟨[0x05], 3⟩ : BitArray).data m) ∧
    BitArray.reset ⟨[0x05], 3⟩ 1 = BitArray.set ⟨[0x05], 3⟩ 1 false :=
  set_spec ⟨[0x05], 3⟩ 1 true (by decide) (by decide) (by decide)

theorem load_cases (d : List Nat) (i : Int) :
    (∃ b, load d i = .ok b) ∨ load d i = .error .undefined_access := by
  unfold load
  split
  · exact Or.inr rfl
  · split
    · exact Or.inl ⟨_, rfl⟩
    · exact Or.inr rfl

theorem store_cases (d : List Nat) (i : Int) (b : Nat) :
    (∃ d1, store d i b = .ok d1 ∧ d1.length = d.length) ∨
      store d i b = .error .undefined_access := by
  unfold store
  split
  · exact Or.inr rfl
  · split
    · exact Or.inl ⟨_, rfl, by simp⟩
    · exact Or.inr rfl

theorem get_out_of_range (v : BitArray) (index : Int) :
    v.get index = .error .out_of_range ↔ (index < 0 ∨ index ≥ v.size) := by
  unfold BitArray.get checkIndex BitArray.size
  by_cases h : index < 0 ∨ index ≥ v.bit_count
  · simp [h]
  · simp only [h, if_false, iff_false]
    rcases load_cases v.data (getByteIndex index) with ⟨b, hb⟩ | hb <;> rw [hb] <;> simp

theorem set_raised (v : BitArray) (index : Int) (value : Bool) :
    ((v.set index value).raised = some .out_of_range ↔ (index < 0 ∨ index ≥ v.size)) ∧
    ((v.set index value).raised ≠ some .invalid_argument) ∧
    ((v.set index value).raised ≠ none → (v.set index value).state = v) ∧
    (v.set index value).state.bit_count = v.bit_count ∧
    (v.set index value).state.data.length = v.data.length := by
  unfold BitArray.set checkIndex BitArray.size
  by_cases h : index < 0 ∨ index ≥ v.bit_count
  · simp [h]
  · simp only [h, if_false, iff_false]
    rcases load_cases v.data (getByteIndex index) with ⟨b, hb⟩ | hb
    · rw [hb]
      simp only []
      generalize (if value = true then b ||| 1 <<< (getBitInByte index).toNat
        else b &&& bitNot32 (1 <<< (getBitInByte index).toNat)) = nb
      rcases store_cases v.data (getByteIndex index) nb with ⟨d1, hd1, hl⟩ | hd1
      · rw [hd1]; simp [hl]
      · rw [hd1]; simp
    · rw [hb]; simp

/-- C3: `operator[]` and `set` raise `out_of_range` exactly when `index < 0` or
`index >= size()`; a failed `set` leaves the vector as it was; for an in-range index on a
vector with `ceil(bit_count / 8)` storage bytes the byte index `index / 8` lies inside the
storage; a 4-bit vector raises `out_of_range` at index `4` and at index `-1`. -/
theorem index_errors (v : BitArray) (index : Int) (value : Bool) :
    (v.get index = .error .out_of_range ↔ (index < 0 ∨ index ≥ v.size)) ∧
    ((v.set index value).raised = some .out_of_range ↔ (index < 0 ∨ index ≥ v.size)) ∧
    ((v.set index value).raised ≠ none → (v.set index value).state = v) ∧
    (Sized v → 0 ≤ index → index < v.size →
      0 ≤ getByteIndex index ∧ (getByteIndex index).toNat < v.data.length ∧
      (∃ b, v.get index = .ok b) ∧ (v.set index value).raised = none) ∧
    (∀ w, ∃ v4, ctor w 4 = .ok v4 ∧ v4.get 4 = .error .out_of_range ∧
      v4.get (-1) = .error .out_of_range) := by
  refine ⟨get_out_of_range v index, (set_raised v index value).1,
    (set_raised v index value).2.2.1, ?_, ?_⟩
  · intro hs h0 h1
    obtain ⟨n, rfl⟩ := Int.eq_ofNat_of_zero_le h0
    have hb : n / 8 < v.data.length := byte_in_range hs h1
    obtain ⟨d, hd, _, _⟩ := set_nat hb h1 value
    refine ⟨?_, ?_, ⟨_, get_nat hb h1⟩, by rw [hd]⟩
    · rw [getByteIndex_nat]; omega
    · rw [getByteIndex_nat]; simpa using hb
  · intro w
    obtain ⟨d, hd, _, _⟩ := ctor_ok w 4 0 (by decide) (by decide)
    refine ⟨⟨d, 4⟩, hd, ?_, ?_⟩
    · exact (get_out_of_range _ 4).2 (Or.inr (le_refl _))
    · exact (get_out_of_range _ (-1)).2 (Or.inl (by decide))

theorem index_errors_witness :
    0 ≤ getByteIndex 2 ∧ (getByteIndex 2).toNat < (⟨[0x0F], 4⟩ : BitArray).data.length ∧
      (∃ b, (⟨[0x0F], 4⟩ : BitArray).get 2 = .ok b) ∧
      (BitArray.set ⟨[0x0F], 4⟩ 2 false).raised = none :=
  (index_errors ⟨[0x0F], 4⟩ 2 false).2.2.2.1 (by decide) (by decide) (by decide)

/-! ## The masking block and `resize` -/

theorem tmod_nat (n : Nat) : Int.tmod (n : Int) 8 = ((n % 8 : Nat) : Int) := by
  simp [Int.tmod]

theorem storageBit_of_le (d : List Nat) (m : Nat) (h : d.length ≤ m / 8) :
    storageBit d m = false := by
  simp [storageBit, List.getD_eq_getElem?_getD, List.getElem?_eq_none h]

theorem testBit_mask (b lb t : Nat) (ht : t < 8) :
    ((b &&& ((1 <<< lb) - 1) % 256) % 256).testBit t = (decide (t < lb) && b.testBit t) := by
  have e : (256 : Nat) = 2 ^ 8 := by norm_num
  rw [e, Nat.testBit_mod_two_pow, Nat.testBit_and, Nat.testBit_mod_two_pow, Nat.one_shiftLeft,
    Nat.testBit_two_pow_sub_one]
  by_cases h : t < lb <;> simp [h, ht]

theorem maskLast_ok (d : List Nat) (n : Nat) (hs : Sized ⟨d, n⟩) :
    ∃ d1, maskLast ⟨d, n⟩ = ⟨none, ⟨d1, n⟩⟩ ∧ d1.length = d.length ∧
      ∀ m, storageBit d1 m = (decide (m < n) && storageBit d m) := by
  obtain ⟨_, h1, h2⟩ := hs
  simp only at h1 h2
  by_cases hpos : (n : Int) > 0
  · by_cases hlb : n % 8 = 0
    · refine ⟨d, ?_, rfl, ?_⟩
      · simp [maskLast, hpos, tmod_nat, hlb]
      · intro m
        by_cases hm : m < n
        · simp [hm]
        · simp only [hm, decide_False, Bool.false_and]
          exact storageBit_of_le d m (by omega)
    · have hlen : 0 < d.length := by omega
      have hback : (d.length : Int) - 1 = ((d.length - 1 : Nat) : Int) := by omega
      have hlt : d.length - 1 < d.length := by omega
      have hne : ¬ ((n % 8 : Nat) : Int) = 0 := by omega
      refine ⟨d.set (d.length - 1)
        ((d.getD (d.length - 1) 0 &&& ((1 <<< (n % 8)) - 1) % 256) % 256), ?_, by simp, ?_⟩
      · simp only [maskLast, hpos, if_true, tmod_nat, ne_eq, hne, not_false_eq_true, hback,
          load_nat _ _ hlt, store_nat _ _ _ hlt, Int.toNat_ofNat]
      · intro m
        rw [storageBit_set _ _ hlt]
        by_cases h8 : m / 8 = d.length - 1
        · rw [if_pos h8, testBit_mask _ _ _ (Nat.mod_lt _ (by decide))]
          have e : (m % 8 < n % 8) ↔ m < n := by omega
          simp only [storageBit, h8, e]
        · rw [if_neg h8]
          by_cases hm : m < n
          · simp [hm]
          · simp only [hm, decide_False, Bool.false_and]
            exact storageBit_of_le d m (by omega)
  · have hn : n = 0 := by omega
    subst hn
    refine ⟨d, ?_, rfl, ?_⟩
    · simp [maskLast]
    · intro m
      simp only [Nat.not_lt_zero, decide_False, Bool.false_and]
      exact storageBit_of_le d m (by omega)

theorem vecResize_length (d : List Nat) (n : Nat) : (vecResize d n).length = n := by
  simp only [vecResize, List.length_append, List.length_take, List.length_replicate]
  omega

theorem vecResize_getD (d : List Nat) (n m : Nat) :
    (vecResize d n).getD m 0 = if m < n ∧ m < d.length then d.getD m 0 else 0 := by
  simp only [vecResize, List.getD_eq_getElem?_getD]
  by_cases h : m < n ∧ m < d.length
  · have h1 : m < (d.take n).length := by simp only [List.length_take]; omega
    rw [if_pos h, List.getElem?_append_left h1, List.getElem?_take_of_lt h.1]
  · rw [if_neg h]
    by_cases h1 : m < (d.take n).length
    · simp only [List.length_take] at h1
      omega
    · rw [List.getElem?_append_right (by omega), List.getElem?_replicate]
      split <;> rfl

theorem fillBody_nat (fill_value : Nat) (i : Nat) (v : BitArray) (hi : i < v.data.length) :
    fillBody fill_value i v
      = ⟨none, ⟨v.data.set i ((fun _ _ => fill_value % 256) i (v.data.getD i 0)),
          v.bit_count⟩⟩ := by
  simp only [fillBody, store_nat _ _ _ hi]

theorem resize_stage (v : BitArray) (n : Int) (fill : Bool) (hn : 0 ≤ n) (nbc : Nat)
    (hbc1 : Int.tdiv (wrapInt (n + 7)) 8 = (nbc : Int)) :
    ∃ d2, d2.length = nbc ∧
      (∀ m, d2.getD m 0 = if m < nbc ∧ m < v.data.length then v.data.getD m 0
        else if m < nbc then (if fill then 0xFF else 0x00) else 0) ∧
      v.resize n fill = maskLast ⟨d2, n⟩ := by
  have hneg : ¬ n < 0 := by omega
  have hnn : ¬ ((nbc : Int) < 0) := by omega
  -- the storage after `data.resize` and the fill loop
  have hfill : ∃ d2, (if (nbc : Int) > (v.data.length : Int) then
        forUp (fillBody (if fill then 0xFF else 0x00)) (v.data.length : Int) (nbc : Int)
          ⟨vecResize v.data nbc, v.bit_count⟩
        else ⟨none, ⟨vecResize v.data nbc, v.bit_count⟩⟩) = ⟨none, ⟨d2, v.bit_count⟩⟩ ∧
      d2.length = nbc ∧
      ∀ m, d2.getD m 0 = if m < nbc ∧ m < v.data.length then v.data.getD m 0
        else if m < nbc then (if fill then 0xFF else 0x00) else 0 := by
    by_cases hgrow : (nbc : Int) > (v.data.length : Int)
    · have hk : ((nbc : Int) - (v.data.length : Int)).toNat = nbc - v.data.length := by omega
      obtain ⟨d2, hd2, hl2, hm2⟩ := loopUp_bytes (fillBody (if fill then 0xFF else 0x00))
        (fun _ _ => (if fill then 0xFF else 0x00) % 256) (fun _ => True)
        (fun i w hi _ => fillBody_nat _ i w hi) (nbc - v.data.length) v.data.length
        ⟨vecResize v.data nbc, v.bit_count⟩
        (by simp only [vecResize_length]; omega) (fun _ _ _ => trivial)
      refine ⟨d2, ?_, by simpa [vecResize_length] using hl2, ?_⟩
      · rw [if_pos hgrow]
        simp only [forUp, hk]
        exact hd2
      · intro m
        rw [hm2 m]
        simp only [vecResize_getD]
        by_cases h1 : m < v.data.length
        · have h2 : ¬ (v.data.length ≤ m ∧ m < v.data.length + (nbc - v.data.length)) := by
            omega
          have h3 : m < nbc := by omega
          simp [h1, h2, h3]
        · by_cases h3 : m < nbc
          · have h2 : v.data.length ≤ m ∧ m < v.data.length + (nbc - v.data.length) := by
              omega
            simp only [h2, and_self, if_true, h3, h1, and_false, if_false]
            cases fill <;> rfl
          · have h2 : ¬ (v.data.length ≤ m ∧ m < v.data.length + (nbc - v.data.length)) := by
              omega
            simp [h1, h2, h3]
    · refine ⟨vecResize v.data nbc, by rw [if_neg hgrow], vecResize_length _ _, ?_⟩
      intro m
      rw [vecResize_getD]
      by_cases h : m < nbc ∧ m < v.data.length
      · simp [h]
      · have h3 : ¬ m < nbc := by omega
        simp [h, h3]
  obtain ⟨d2, hd2, hl2, hm2⟩ := hfill
  refine ⟨d2, hl2, hm2, ?_⟩
  have hv : vecResizeInt v.data (nbc : Int) = .ok (vecResize v.data nbc) := by
    unfold vecResizeInt
    rw [if_neg hnn, Int.toNat_ofNat]
  unfold resize
  rw [if_neg hneg, hbc1]
  simp only [hv]
  rw [hd2]

theorem resize_ok (v : BitArray) (n : Nat) (fill : Bool) (hmax : (n : Int) ≤ INT_MAX - 7) :
    ∃ d, v.resize n fill = ⟨none, ⟨d, n⟩⟩ ∧ Sized ⟨d, n⟩ ∧
      ∀ m, storageBit d m = (decide (m < n) &&
        if m < 8 * v.data.length then storageBit v.data m else fill) := by
  obtain ⟨nbc, hbc⟩ : ∃ nbc : Nat, (nbc : Int) = Int.tdiv ((n : Int) + 7) 8 := by
    refine ⟨(Int.tdiv ((n : Int) + 7) 8).toNat, ?_⟩
    rw [Int.tdiv_eq_ediv (by omega) (by omega)]
    omega
  have hchar := (tdiv_add_seven n (by omega) nbc).1 hbc
  have hwrap : wrapInt ((n : Int) + 7) = (n : Int) + 7 := by
    simp only [INT_MAX] at hmax
    exact wrapInt_id _ (by omega) (by omega)
  have hbc1 : Int.tdiv (wrapInt ((n : Int) + 7)) 8 = (nbc : Int) := by
    rw [hwrap]
    exact hbc.symm
  obtain ⟨d2, hl2, hm2, hrun⟩ := resize_stage v n fill (by omega) nbc hbc1
  have hs2 : Sized ⟨d2, n⟩ := by
    refine ⟨by simp, ?_, ?_⟩ <;> simp only [hl2] <;> omega
  obtain ⟨d3, hd3, hl3, hm3⟩ := maskLast_ok d2 n hs2
  refine ⟨d3, ?_, ?_, ?_⟩
  · rw [hrun]
    exact hd3
  · refine ⟨by simp, ?_, ?_⟩ <;> simp only [hl3, hl2] <;> omega
  · intro m
    rw [hm3 m]
    by_cases hm : m < n
    · have h1 : m / 8 < nbc := by omega
      have h8 : m % 8 < 8 := Nat.mod_lt _ (by decide)
      simp only [hm, decide_True, Bool.true_and, storageBit, hm2, h1, true_and]
      by_cases h2 : m / 8 < v.data.length
      · have h4 : m < 8 * v.data.length := by omega
        simp [h2, h4]
      · have h4 : ¬ m < 8 * v.data.length := by omega
        simp only [h2, h4, if_false, if_true]
        cases fill
        · simp
        · have e : (0xFF : Nat) = 2 ^ 8 - 1 := by norm_num
          simp only [if_true, e, Nat.testBit_two_pow_sub_one, h8, decide_True]
    · simp [hm]

theorem resize_overflow (v : BitArray) (new_size : Int) (fill : Bool)
    (h1 : INT_MAX - 7 < new_size) (h2 : new_size ≤ INT_MAX) :
    v.resize new_size fill = ⟨some .length_error, v⟩ := by
  simp only [INT_MAX] at h1 h2
  have hneg : ¬ new_size < 0 := by omega
  have hlt := wrapInt_overflow (new_size + 7) (by omega) (by omega)
  simp only [resize, hneg, if_false, vecResizeInt, hlt, if_true]

theorem padding_small (b n : Nat) (hb : b < 2 ^ n) : PaddingZero ⟨[b], n⟩ := by
  intro j hj
  simp only at hj
  by_cases h8 : j < 8
  · have h1 : j / 8 = 0 := by omega
    have h2 : j % 8 = j := by omega
    have hle : 2 ^ n ≤ 2 ^ j := Nat.pow_le_pow_right (by decide) (by omega)
    simp only [storageBit, h1, h2, List.getD_cons_zero]
    exact Nat.testBit_lt_two_pow (by omega)
  · exact storageBit_of_le _ _ (by simp only [List.length_singleton]; omega)

/-- C4, as the code has it: `resize(new_size, fill)` raises `invalid_argument` and leaves
the vector unchanged when `new_size < 0`; on a vector satisfying I1 and I2, with old size `s`
and old byte count `B`, and `0 ≤ new_size ≤ INT_MAX - 7`, it returns normally with
`size() = new_size`, and for `i < new_size` the bit `v[i]` is the old `v[i]` when `i < s`,
`false` when `s ≤ i < 8 * B`, and `fill` when `i ≥ 8 * B`. -/
theorem resize_spec (v : BitArray) (new_size : Int) (fill : Bool) :
    (new_size < 0 → v.resize new_size fill = ⟨some .invalid_argument, v⟩) ∧
    (0 ≤ new_size → new_size ≤ INT_MAX - 7 → Sized v → PaddingZero v →
      (v.resize new_size fill).raised = none ∧
      (v.resize new_size fill).state.size = new_size ∧
      ∀ i : Int, 0 ≤ i → i < new_size →
        (v.resize new_size fill).state.get i =
          if i < v.size then v.get i
          else if i < 8 * (v.data.length : Int) then .ok false else .ok fill) := by
  constructor
  · intro h
    simp [resize, h]
  · intro h hmax hs hp
    obtain ⟨n, rfl⟩ := Int.eq_ofNat_of_zero_le h
    obtain ⟨d, hd, hsd, hdm⟩ := resize_ok v n fill hmax
    rw [hd]
    refine ⟨rfl, rfl, ?_⟩
    intro i hi0 hi1
    obtain ⟨m, rfl⟩ := Int.eq_ofNat_of_zero_le hi0
    have hmn : m < n := by omega
    rw [get_nat (v := ⟨d, n⟩) (byte_in_range hsd hi1) hi1, hdm m]
    simp only [hmn, decide_True, Bool.true_and, BitArray.size]
    by_cases h1 : (m : Int) < v.bit_count
    · have h2 : m / 8 < v.data.length := byte_in_range hs h1
      have h3 : m < 8 * v.data.length := by omega
      rw [if_pos h1, if_pos h3, get_nat h2 h1]
    · rw [if_neg h1]
      by_cases h3 : m < 8 * v.data.length
      · have h4 : (m : Int) < 8 * (v.data.length : Int) := by omega
        rw [if_pos h3, if_pos h4, hp m (by omega)]
      · have h4 : ¬ (m : Int) < 8 * (v.data.length : Int) := by omega
        rw [if_neg h3, if_neg h4]

theorem resize_spec_witness :
    (BitArray.resize ⟨[0x05], 3⟩ 12 true).raised = none ∧
    (BitArray.resize ⟨[0x05], 3⟩ 12 true).state.size = 12 ∧
    ∀ i : Int, 0 ≤ i → i < 12 →
      (BitArray.resize ⟨[0x05], 3⟩ 12 true).state.get i =
        if i < (⟨[0x05], 3⟩ : BitArray).size then (⟨[0x05], 3⟩ : BitArray).get i
        else if i < 8 * ((⟨[0x05], 3⟩ : BitArray).data.length : Int) then .ok false
        else .ok true :=
  (resize_spec ⟨[0x05], 3⟩ 12 true).2 (by decide) (by decide) (by decide)
    (padding_small 5 3 (by decide))

/-- C4 as stated fails: on `⟨[0x05], 3⟩`, which satisfies I1 and I2, `resize(INT_MAX)` has
`new_size ≥ 0`, yet `new_size + 7` leaves the range of `int`, `data.resize` throws
`std::length_error` and the size stays `3`. -/
theorem resize_spec_counterexample :
    Sized ⟨[0x05], 3⟩ ∧ PaddingZero ⟨[0x05], 3⟩ ∧ (0 : Int) ≤ 2147483647 ∧
      (BitArray.resize ⟨[0x05], 3⟩ 2147483647 false).raised = some .length_error ∧
      (BitArray.resize ⟨[0x05], 3⟩ 2147483647 false).state.size ≠ 2147483647 := by
  have h : BitArray.resize ⟨[0x05], 3⟩ 2147483647 false = ⟨some .length_error, ⟨[0x05], 3⟩⟩ :=
    resize_overflow _ 2147483647 false (by decide) (by decide)
  rw [h]
  exact ⟨by decide, padding_small 5 3 (by decide), by decide, rfl, by decide⟩

/-! ## `push_back` -/

theorem ctor_zero (w : Nat) : ctor w 0 = .ok ⟨[], 0⟩ := by
  obtain ⟨d, hd, hlen, _⟩ := ctor_ok w 0 0 (by decide) (by decide)
  have hl : d.length = 0 := by omega
  rw [List.length_eq_zero] at hl
  rw [hd, hl]

theorem push_back_unfold (v : BitArray) (bit : Bool) (n1 : Int)
    (h : wrapInt (v.bit_count + 1) = n1) :
    v.push_back bit = match v.resize n1 false with
      | ⟨some e, v1⟩ => ⟨some e, v1⟩
      | ⟨none, v1⟩ => v1.set (v1.bit_count - 1) bit := by
  unfold push_back
  rw [h]

theorem push_back_run (dat : List Nat) (n : Nat) (bit : Bool) (hmax : (n : Int) ≤ INT_MAX - 8) :
    ∃ d d1, Sized ⟨d, ((n + 1 : Nat) : Int)⟩ ∧
      (∀ m, storageBit d m = (decide (m < n + 1) &&
        if m < 8 * dat.length then storageBit dat m else false)) ∧
      BitArray.push_back ⟨dat, n⟩ bit = ⟨none, ⟨d1, ((n + 1 : Nat) : Int)⟩⟩ ∧
      d1.length = d.length ∧
      ∀ m, storageBit d1 m = if m = n then bit else storageBit d m := by
  have hmax1 : ((n + 1 : Nat) : Int) ≤ INT_MAX - 7 := by
    simp only [INT_MAX] at hmax ⊢
    omega
  have hw : wrapInt ((⟨dat, n⟩ : BitArray).bit_count + 1) = ((n + 1 : Nat) : Int) := by
    simp only [INT_MAX] at hmax
    rw [wrapInt_id _ (by simp only; omega) (by simp only; omega)]
    simp only
    omega
  obtain ⟨d, hd, hsd, hdm⟩ := resize_ok ⟨dat, n⟩ (n + 1) false hmax1
  have hn : ((n : Int)) < ((n + 1 : Nat) : Int) := by omega
  obtain ⟨d1, hd1, hl1, hm1⟩ := set_nat (v := ⟨d, ((n + 1 : Nat) : Int)⟩)
    (byte_in_range hsd hn) hn bit
  refine ⟨d, d1, hsd, hdm, ?_, hl1, hm1⟩
  have e2 : ((n + 1 : Nat) : Int) - 1 = (n : Int) := by omega
  rw [push_back_unfold _ _ _ hw, hd]
  simp only [e2]
  exact hd1

theorem push_back_overflow (v : BitArray) (bit : Bool) (h1 : INT_MAX - 8 < v.bit_count)
    (h2 : v.bit_count ≤ INT_MAX - 1) : v.push_back bit = ⟨some .length_error, v⟩ := by
  have hw : wrapInt (v.bit_count + 1) = v.bit_count + 1 := by
    simp only [INT_MAX] at h1 h2
    exact wrapInt_id _ (by omega) (by omega)
  have hr := resize_overflow v (v.bit_count + 1) false
    (by simp only [INT_MAX] at h1 ⊢; omega) (by simp only [INT_MAX] at h2 ⊢; omega)
  rw [push_back_unfold _ _ _ hw, hr]

/-- C5, as the code has it: on a vector with `ceil(bit_count / 8)` storage bytes (padding
bits arbitrary) and `size() ≤ INT_MAX - 8`, `push_back(bit)` returns normally, the size grows
by one, the new highest bit is `bit` and every bit below the old size is unchanged; from the
empty vector, pushing `true`, `false`, `true` gives size `3` and the rendering `"101"`. -/
theorem push_back_spec (v : BitArray) (bit : Bool) (hs : Sized v)
    (hmax : v.size ≤ INT_MAX - 8) :
    (v.push_back bit).raised = none ∧
    (v.push_back bit).state.size = v.size + 1 ∧
    (v.push_back bit).state.get v.size = .ok bit ∧
    (∀ i : Int, 0 ≤ i → i < v.size → (v.push_back bit).state.get i = v.get i) ∧
    (∀ w, ∃ v0 v1 v2 v3, ctor w 0 = .ok v0 ∧ v0.push_back true = ⟨none, v1⟩ ∧
      v1.push_back false = ⟨none, v2⟩ ∧ v2.push_back true = ⟨none, v3⟩ ∧
      v3.size = 3 ∧ v3.to_string = .ok "101") := by
  obtain ⟨dat, bc⟩ := v
  obtain ⟨n, rfl⟩ := Int.eq_ofNat_of_zero_le hs.1
  obtain ⟨d, d1, hsd, hdm, hpb, hl1, hm1⟩ := push_back_run dat n bit hmax
  have hn : ((n : Int)) < ((n + 1 : Nat) : Int) := by omega
  have hsd1 : Sized ⟨d1, ((n + 1 : Nat) : Int)⟩ := by
    obtain ⟨a, b, c⟩ := hsd
    refine ⟨a, ?_, ?_⟩ <;> simp only [hl1] <;> assumption
  rw [hpb]
  refine ⟨rfl, by simp [BitArray.size], ?_, ?_, ?_⟩
  · simp only [BitArray.size]
    rw [get_nat (v := ⟨d1, _⟩) (byte_in_range hsd1 hn) hn, hm1 n]
    simp
  · intro i hi0 hi1
    obtain ⟨m, rfl⟩ := Int.eq_ofNat_of_zero_le hi0
    simp only [BitArray.size] at hi1
    have hmn : m < n := by omega
    have hm2 : (m : Int) < ((n + 1 : Nat) : Int) := by omega
    have hb : m / 8 < dat.length := byte_in_range hs hi1
    have hne : m ≠ n := by omega
    have h3 : m < n + 1 := by omega
    have h4 : m < 8 * dat.length := by omega
    rw [get_nat (v := ⟨d1, _⟩) (byte_in_range hsd1 hm2) hm2, hm1 m, get_nat hb hi1, if_neg hne,
      hdm m]
    simp [h3, h4]
  · intro w
    exact ⟨⟨[], 0⟩, ⟨[1], 1⟩, ⟨[1], 2⟩, ⟨[5], 3⟩, ctor_zero w, by decide, by decide, by decide,
      by decide, by decide⟩

theorem push_back_spec_witness :
    (BitArray.push_back ⟨[0x07], 2⟩ false).raised = none ∧
    (BitArray.push_back ⟨[0x07], 2⟩ false).state.size = (⟨[0x07], 2⟩ : BitArray).size + 1 ∧
    (BitArray.push_back ⟨[0x07], 2⟩ false).state.get (⟨[0x07], 2⟩ : BitArray).size
      = .ok false ∧
    (∀ i : Int, 0 ≤ i → i < (⟨[0x07], 2⟩ : BitArray).size →
      (BitArray.push_back ⟨[0x07], 2⟩ false).state.get i = (⟨[0x07], 2⟩ : BitArray).get i) ∧
    (∀ w, ∃ v0 v1 v2 v3, ctor w 0 = .ok v0 ∧ v0.push_back true = ⟨none, v1⟩ ∧
      v1.push_back false = ⟨none, v2⟩ ∧ v2.push_back true = ⟨none, v3⟩ ∧
      v3.size = 3 ∧ v3.to_string = .ok "101") :=
  push_back_spec ⟨[0x07], 2⟩ false (by decide) (by decide)

/-- C5 as stated fails: the all-zero vector of `INT_MAX - 7` bits, the value of
`BitArray(2147483640)`, has `ceil(bit_count / 8)` storage bytes, yet `push_back` calls
`resize(2147483641)`, where `new_size + 7` leaves the range of `int` and `data.resize`
throws `std::length_error`; the size does not grow. -/
theorem push_back_spec_counterexample :
    Sized ⟨List.replicate 268435455 0, 2147483640⟩ ∧
      (BitArray.push_back ⟨List.replicate 268435455 0, 2147483640⟩ true).raised
        = some .length_error ∧
      (BitArray.push_back ⟨List.replicate 268435455 0, 2147483640⟩ true).state.size
        ≠ (⟨List.replicate 268435455 0, 2147483640⟩ : BitArray).size + 1 := by
  have h := push_back_overflow ⟨List.replicate 268435455 0, 2147483640⟩ true
    (by decide) (by decide)
  rw [h]
  refine ⟨⟨by decide, ?_, ?_⟩, rfl, by decide⟩
  · simp only [List.length_replicate]
    decide
  · simp only [List.length_replicate]
    decide

/-! ## `to_string` -/

theorem ctor_eight (w : Nat) (hw : 0 < w) (value : Nat) :
    ctor w 8 value = .ok ⟨[value &&& 0xFF], 8⟩ := by
  obtain ⟨d, hd, ⟨h1, h2⟩, hdm⟩ := ctor_ok w 8 value (by decide) (by decide)
  have hl : d.length = 1 := by omega
  match d, hl with
  | [x], _ =>
    have h0 := hdm 0
    have hmin : 0 < min w 1 := by simp [hw]
    simp only [List.getD_cons_zero, List.length_singleton, hmin, if_true, Nat.mul_zero,
      Nat.shiftRight_zero] at h0
    rw [hd, h0]

theorem to_string_loop_ok (v : BitArray) (hs : Sized v) :
    ∀ (k : Nat) (acc : String), (k : Int) ≤ v.bit_count →
      to_string_loop v k ((k : Int) - 1) acc = .ok ⟨acc.data ++
        (List.range k).reverse.map (fun j => if storageBit v.data j then '1' else '0')⟩ := by
  intro k
  induction k with
  | zero =>
    intro acc _
    simp [to_string_loop]
  | succ k ih =>
    intro acc hk
    have hlt : (k : Int) < v.bit_count := by omega
    have e : ((k + 1 : Nat) : Int) - 1 = (k : Int) := by omega
    rw [e]
    simp only [to_string_loop, get_nat (byte_in_range hs hlt) hlt]
    rw [ih _ (by omega)]
    simp [List.range_succ]

/-- C6: on a vector with `ceil(bit_count / 8)` storage bytes `to_string()` returns a
string of length `size()` over `'0'`, `'1'` whose character at position `k` is `'1'` exactly
when `v[size() - 1 - k]` is set; it is empty when `size() == 0`; and
`BitArray(8, 0b00001011)` renders as `"00001011"`. -/
theorem to_string_spec (v : BitArray) (hs : Sized v) :
    (∃ s, v.to_string = .ok s ∧ (s.length : Int) = v.size ∧
      (∀ c ∈ s.data, c = '0' ∨ c = '1') ∧
      (∀ k : Nat, (k : Int) < v.size → ∃ c b, s.data[k]? = some c ∧
        v.get (v.size - 1 - (k : Int)) = .ok b ∧ (c = '1' ↔ b = true)) ∧
      (v.size = 0 → s = "")) ∧
    (∀ w, 0 < w → ∃ v8, ctor w 8 0b00001011 = .ok v8 ∧ v8.to_string = .ok "00001011") := by
  constructor
  · obtain ⟨dat, bc⟩ := v
    obtain ⟨n, rfl⟩ := Int.eq_ofNat_of_zero_le hs.1
    have hk : ((n : Int) - 1 - 0 + 1).toNat = n := by omega
    have hrun := to_string_loop_ok ⟨dat, n⟩ hs n "" (le_refl _)
    have he : ("" : String).data = [] := rfl
    simp only [he, List.nil_append] at hrun
    refine ⟨⟨(List.range n).reverse.map (fun j => if storageBit dat j then '1' else '0')⟩,
      ?_, ?_, ?_, ?_, ?_⟩
    · simp only [to_string, hk]
      exact hrun
    · simp [String.length, BitArray.size]
    · intro c hc
      simp only [List.mem_map] at hc
      obtain ⟨j, _, rfl⟩ := hc
      split <;> simp
    · intro k hkn
      simp only [BitArray.size] at hkn ⊢
      have hkn2 : k < n := by omega
      have hidx : (n : Int) - 1 - (k : Int) = ((n - 1 - k : Nat) : Int) := by omega
      have hlt : ((n - 1 - k : Nat) : Int) < (n : Int) := by omega
      refine ⟨if storageBit dat (n - 1 - k) then '1' else '0', storageBit dat (n - 1 - k),
        ?_, ?_, ?_⟩
      · simp only [List.getElem?_map,
          List.getElem?_reverse (show k < (List.range n).length by simpa using hkn2),
          List.length_range, List.getElem?_range (show n - 1 - k < n by omega), Option.map_some']
      · rw [hidx]
        exact get_nat (v := ⟨dat, n⟩) (byte_in_range hs hlt) hlt
      · cases storageBit dat (n - 1 - k) <;> simp
    · intro h0
      simp only [BitArray.size] at h0
      have hn0 : n = 0 := by omega
      subst hn0
      rfl
  · intro w hw
    exact ⟨_, ctor_eight w hw _, by decide⟩

theorem to_string_spec_witness :
    (∃ s, (⟨[0x05], 3⟩ : BitArray).to_string = .ok s ∧
      (s.length : Int) = (⟨[0x05], 3⟩ : BitArray).size ∧
      (∀ c ∈ s.data, c = '0' ∨ c = '1') ∧
      (∀ k : Nat, (k : Int) < (⟨[0x05], 3⟩ : BitArray).size → ∃ c b, s.data[k]? = some c ∧
        (⟨[0x05], 3⟩ : BitArray).get ((⟨[0x05], 3⟩ : BitArray).size - 1 - (k : Int)) = .ok b ∧
        (c = '1' ↔ b = true)) ∧
      ((⟨[0x05], 3⟩ : BitArray).size = 0 → s = "")) ∧
    (∀ w, 0 < w → ∃ v8, ctor w 8 0b00001011 = .ok v8 ∧ v8.to_string = .ok "00001011") :=
  to_string_spec ⟨[0x05], 3⟩ (by decide)

/-! ## Byte-wise `&=`, `|=`, `^=` -/

theorem bytewiseBody_nat (op : Nat → Nat → Nat) (other : BitArray) (i : Nat) (v : BitArray)
    (hi : i < v.data.length) (ho : i < other.data.length) :
    bytewiseBody op other i v
      = ⟨none, ⟨v.data.set i ((fun m x => op x (other.data.getD m 0) % 256) i
          (v.data.getD i 0)), v.bit_count⟩⟩ := by
  simp only [bytewiseBody, load_nat _ _ hi, load_nat _ _ ho, store_nat _ _ _ hi]

theorem bytewise_ok (op : Nat → Nat → Nat) (f : Bool → Bool → Bool)
    (hop : ∀ x y t, (op x y).testBit t = f (x.testBit t) (y.testBit t))
    (a b : BitArray) (hsa : Sized a) (hsb : Sized b) (heq : a.size = b.size) :
    ∃ r, bytewiseAssign op a b = ⟨none, r⟩ ∧ returned (bytewiseAssign op a b) = .ok r ∧
      r.size = a.size ∧ r.data.length = a.data.length ∧
      ∀ i : Int, 0 ≤ i → i < a.size →
        ∃ x y, a.get i = .ok x ∧ b.get i = .ok y ∧ r.get i = .ok (f x y) := by
  simp only [BitArray.size] at heq
  have hlen : a.data.length = b.data.length := by
    obtain ⟨_, h1, h2⟩ := hsa
    obtain ⟨_, h3, h4⟩ := hsb
    omega
  obtain ⟨d, hd, hdl, hdm⟩ := loopUp_bytes (bytewiseBody op b)
    (fun m x => op x (b.data.getD m 0) % 256) (fun m => m < b.data.length)
    (fun i v hi ho => bytewiseBody_nat op b i v hi ho) a.data.length 0 a
    (by omega) (fun i _ h => by omega)
  have hrun : bytewiseAssign op a b = ⟨none, ⟨d, a.bit_count⟩⟩ := by
    have hne : ¬ a.bit_count ≠ b.bit_count := by simp [heq]
    have hk : ((a.data.length : Int) - 0).toNat = a.data.length := by omega
    simp only [bytewiseAssign, checkSameSize, hne, if_false, forUp, hk]
    exact_mod_cast hd
  refine ⟨⟨d, a.bit_count⟩, hrun, by rw [hrun]; rfl, rfl, hdl, ?_⟩
  intro i hi0 hi1
  obtain ⟨m, rfl⟩ := Int.eq_ofNat_of_zero_le hi0
  simp only [BitArray.size] at hi1
  have hba : m / 8 < a.data.length := byte_in_range hsa hi1
  have hbb : m / 8 < b.data.length := by omega
  refine ⟨_, _, get_nat hba hi1, get_nat hbb (by omega), ?_⟩
  rw [get_nat (v := ⟨d, a.bit_count⟩) (by simpa [hdl] using hba) hi1]
  have h1 : 0 ≤ m / 8 ∧ m / 8 < 0 + a.data.length := by omega
  have e : (256 : Nat) = 2 ^ 8 := by norm_num
  have h8 : m % 8 < 8 := Nat.mod_lt _ (by decide)
  simp only [storageBit, hdm, h1, and_self, if_true, e, Nat.testBit_mod_two_pow, hop, h8,
    decide_True, Bool.true_and]

/-- C7: for vectors `a`, `b` of equal size, each with `ceil(bit_count / 8)` storage bytes,
`a &= b`, `a |= b`, `a ^= b` return normally (no storage access leaves the vectors), keep the
size, and produce the bitwise and, or, exclusive or of the operands at every index below the
size; `a & b`, `a | b`, `a ^ b` return the same vectors. -/
theorem bitwise_spec (a b : BitArray) (hsa : Sized a) (hsb : Sized b) (heq : a.size = b.size) :
    (∃ r, a.andAssign b = ⟨none, r⟩ ∧ op_and a b = .ok r ∧ r.size = a.size ∧
      r.data.length = a.data.length ∧
      ∀ i : Int, 0 ≤ i → i < a.size →
        ∃ x y, a.get i = .ok x ∧ b.get i = .ok y ∧ r.get i = .ok (x && y)) ∧
    (∃ r, a.orAssign b = ⟨none, r⟩ ∧ op_or a b = .ok r ∧ r.size = a.size ∧
      r.data.length = a.data.length ∧
      ∀ i : Int, 0 ≤ i → i < a.size →
        ∃ x y, a.get i = .ok x ∧ b.get i = .ok y ∧ r.get i = .ok (x || y)) ∧
    (∃ r, a.xorAssign b = ⟨none, r⟩ ∧ op_xor a b = .ok r ∧ r.size = a.size ∧
      r.data.length = a.data.length ∧
      ∀ i : Int, 0 ≤ i → i < a.size →
        ∃ x y, a.get i = .ok x ∧ b.get i = .ok y ∧ r.get i = .ok (Bool.xor x y)) :=
  ⟨bytewise_ok _ _ (fun x y t => Nat.testBit_and x y t) a b hsa hsb heq,
   bytewise_ok _ _ (fun x y t => Nat.testBit_or x y t) a b hsa hsb heq,
   bytewise_ok _ _ (fun x y t => Nat.testBit_xor x y t) a b hsa hsb heq⟩

theorem bitwise_spec_witness :
    (∃ r, BitArray.andAssign ⟨[0x05], 3⟩ ⟨[0x06], 3⟩ = ⟨none, r⟩ ∧
      op_and ⟨[0x05], 3⟩ ⟨[0x06], 3⟩ = .ok r ∧ r.size = (⟨[0x05], 3⟩ : BitArray).size ∧
      r.data.length = (⟨[0x05], 3⟩ : BitArray).data.length ∧
      ∀ i : Int, 0 ≤ i → i < (⟨[0x05], 3⟩ : BitArray).size →
        ∃ x y, (⟨[0x05], 3⟩ : BitArray).get i = .ok x ∧
          (⟨[0x06], 3⟩ : BitArray).get i = .ok y ∧ r.get i = .ok (x && y)) ∧
    (∃ r, BitArray.orAssign ⟨[0x05], 3⟩ ⟨[0x06], 3⟩ = ⟨none, r⟩ ∧
      op_or ⟨[0x05], 3⟩ ⟨[0x06], 3⟩ = .ok r ∧ r.size = (⟨[0x05], 3⟩ : BitArray).size ∧
      r.data.length = (⟨[0x05], 3⟩ : BitArray).data.length ∧
      ∀ i : Int, 0 ≤ i → i < (⟨[0x05], 3⟩ : BitArray).size →
        ∃ x y, (⟨[0x05], 3⟩ : BitArray).get i = .ok x ∧
          (⟨[0x06], 3⟩ : BitArray).get i = .ok y ∧ r.get i = .ok (x || y)) ∧
    (∃ r, BitArray.xorAssign ⟨[0x05], 3⟩ ⟨[0x06], 3⟩ = ⟨none, r⟩ ∧
      op_xor ⟨[0x05], 3⟩ ⟨[0x06], 3⟩ = .ok r ∧ r.size = (⟨[0x05], 3⟩ : BitArray).size ∧
      r.data.length = (⟨[0x05], 3⟩ : BitArray).data.length ∧
      ∀ i : Int, 0 ≤ i → i < (⟨[0x05], 3⟩ : BitArray).size →
        ∃ x y, (⟨[0x05], 3⟩ : BitArray).get i = .ok x ∧
          (⟨[0x06], 3⟩ : BitArray).get i = .ok y ∧ r.get i = .ok (Bool.xor x y)) :=
  bitwise_spec ⟨[0x05], 3⟩ ⟨[0x06], 3⟩ (by decide) (by decide) (by decide)

/-! ## Size mismatch -/

theorem loopUp_raised_ne (body : Int → BitArray → Outcome) (e : Exn)
    (hbody : ∀ i v, (body i v).raised ≠ some e) :
    ∀ (k : Nat) (s : Int) (v : BitArray), (loopUp body k s v).raised ≠ some e := by
  intro k
  induction k with
  | zero => intro s v; simp [loopUp]
  | succ k ih =>
    intro s v
    have hb := hbody s v
    unfold loopUp
    split
    · exact ih _ _
    · rename_i e1 v1 heq
      rw [heq] at hb
      exact hb

theorem loopDown_raised_ne (body : Int → BitArray → Outcome) (e : Exn)
    (hbody : ∀ i v, (body i v).raised ≠ some e) :
    ∀ (k : Nat) (s : Int) (v : BitArray), (loopDown body k s v).raised ≠ some e := by
  intro k
  induction k with
  | zero => intro s v; simp [loopDown]
  | succ k ih =>
    intro s v
    have hb := hbody s v
    unfold loopDown
    split
    · exact ih _ _
    · rename_i e1 v1 heq
      rw [heq] at hb
      exact hb

theorem bytewiseBody_raised (op : Nat → Nat → Nat) (other : BitArray) (i : Int)
    (v : BitArray) : (bytewiseBody op other i v).raised ≠ some .invalid_argument := by
  unfold bytewiseBody
  rcases load_cases v.data i with ⟨x, hx⟩ | hx
  · rcases load_cases other.data i with ⟨y, hy⟩ | hy
    · rcases store_cases v.data i (op x y) with ⟨d, hd, _⟩ | hd
      · rw [hx, hy]; simp only []; rw [hd]; simp
      · rw [hx, hy]; simp only []; rw [hd]; simp
    · rw [hx, hy]; simp
  · rw [hx]; simp

theorem returned_error (o : Outcome) (e : Exn) :
    returned o = .error e ↔ o.raised = some e := by
  obtain ⟨r, st⟩ := o
  cases r <;> simp [returned]

theorem bytewise_mismatch (op : Nat → Nat → Nat) (a b : BitArray) :
    ((bytewiseAssign op a b).raised = some .invalid_argument ↔ a.size ≠ b.size) ∧
    (a.size ≠ b.size → bytewiseAssign op a b = ⟨some .invalid_argument, a⟩) ∧
    (returned (bytewiseAssign op a b) = .error .invalid_argument ↔ a.size ≠ b.size) := by
  have h2 : a.size ≠ b.size → bytewiseAssign op a b = ⟨some .invalid_argument, a⟩ := by
    intro h
    simp only [BitArray.size] at h
    simp [bytewiseAssign, checkSameSize, h]
  have h1 : (bytewiseAssign op a b).raised = some .invalid_argument ↔ a.size ≠ b.size := by
    constructor
    · intro hr hs
      simp only [BitArray.size] at hs
      have hne : ¬ a.bit_count ≠ b.bit_count := by simp [hs]
      simp only [bytewiseAssign, checkSameSize, hne, if_false, forUp] at hr
      exact loopUp_raised_ne _ _ (bytewiseBody_raised op b) _ _ _ hr
    · intro h
      rw [h2 h]
  exact ⟨h1, h2, (returned_error _ _).trans h1⟩

/-- C8: each of `&=`, `|=`, `^=` and of `&`, `|`, `^` raises `invalid_argument` exactly when
the operand sizes differ, and the compound forms then leave the left operand (its `bit_count`
and every storage byte) as it was, the right operand being read-only;
`BitArray(3) & BitArray(5)` raises `invalid_argument`. -/
theorem size_mismatch_spec (a b : BitArray) :
    (((a.andAssign b).raised = some .invalid_argument ↔ a.size ≠ b.size) ∧
      (a.size ≠ b.size → a.andAssign b = ⟨some .invalid_argument, a⟩) ∧
      (op_and a b = .error .invalid_argument ↔ a.size ≠ b.size)) ∧
    (((a.orAssign b).raised = some .invalid_argument ↔ a.size ≠ b.size) ∧
      (a.size ≠ b.size → a.orAssign b = ⟨some .invalid_argument, a⟩) ∧
      (op_or a b = .error .invalid_argument ↔ a.size ≠ b.size)) ∧
    (((a.xorAssign b).raised = some .invalid_argument ↔ a.size ≠ b.size) ∧
      (a.size ≠ b.size → a.xorAssign b = ⟨some .invalid_argument, a⟩) ∧
      (op_xor a b = .error .invalid_argument ↔ a.size ≠ b.size)) ∧
    (∀ w, ∃ v3 v5, ctor w 3 = .ok v3 ∧ ctor w 5 = .ok v5 ∧
      op_and v3 v5 = .error .invalid_argument) := by
  refine ⟨bytewise_mismatch _ a b, bytewise_mismatch _ a b, bytewise_mismatch _ a b, ?_⟩
  intro w
  obtain ⟨d3, h3, _, _⟩ := ctor_ok w 3 0 (by decide) (by decide)
  obtain ⟨d5, h5, _, _⟩ := ctor_ok w 5 0 (by decide) (by decide)
  refine ⟨_, _, h3, h5, ?_⟩
  exact (bytewise_mismatch _ ⟨d3, 3⟩ ⟨d5, 5⟩).2.2.2 (by simp [BitArray.size])

theorem size_mismatch_spec_witness :
    BitArray.andAssign ⟨[0x05], 3⟩ ⟨[0x15], 5⟩ = ⟨some .invalid_argument, ⟨[0x05], 3⟩⟩ :=
  (size_mismatch_spec ⟨[0x05], 3⟩ ⟨[0x15], 5⟩).1.2.1 (by decide)

/-! ## Shifts: the bit-by-bit loops -/

theorem sized_of_length {v : BitArray} (hs : Sized v) (d : List Nat)
    (hl : d.length = v.data.length) : Sized ⟨d, v.bit_count⟩ := by
  obtain ⟨a, b, c⟩ := hs
  refine ⟨a, ?_, ?_⟩ <;> simp only [hl] <;> assumption

/-- One iteration `set(i, (*this)[j])` with both indices in range. -/
theorem copy_step {v : BitArray} (hs : Sized v) {i j : Nat} (hi : (i : Int) < v.bit_count)
    (hj : (j : Int) < v.bit_count) :
    ∃ d, (match v.get j with
        | .error e => (⟨some e, v⟩ : Outcome)
        | .ok b => v.set i b) = ⟨none, ⟨d, v.bit_count⟩⟩ ∧ d.length = v.data.length ∧
      ∀ m, storageBit d m = if m = i then storageBit v.data j else storageBit v.data m := by
  obtain ⟨d, hd, hdl, hdm⟩ := set_nat (byte_in_range hs hi) hi (storageBit v.data j)
  refine ⟨d, ?_, hdl, hdm⟩
  rw [get_nat (byte_in_range hs hj) hj]
  exact hd

theorem shl_copy_loop (n : Nat) :
    ∀ (k lo : Nat) (v : BitArray), Sized v → n ≤ lo → ((lo + k : Nat) : Int) ≤ v.bit_count →
      ∃ d, loopDown (shlBody n) k (((lo + k : Nat) : Int) - 1) v = ⟨none, ⟨d, v.bit_count⟩⟩ ∧
        d.length = v.data.length ∧
        ∀ m, storageBit d m =
          if lo ≤ m ∧ m < lo + k then storageBit v.data (m - n) else storageBit v.data m := by
  intro k
  induction k with
  | zero =>
    intro lo v _ _ _
    refine ⟨v.data, rfl, rfl, ?_⟩
    intro m
    have : ¬ (lo ≤ m ∧ m < lo + 0) := by omega
    rw [if_neg this]
  | succ k ih =>
    intro lo v hs hlo hk
    have e1 : ((lo + (k + 1) : Nat) : Int) - 1 = ((lo + k : Nat) : Int) := by omega
    have e2 : ((lo + k : Nat) : Int) - (n : Int) = ((lo + k - n : Nat) : Int) := by omega
    obtain ⟨d1, hd1, hl1, hm1⟩ := copy_step hs (i := lo + k) (j := lo + k - n)
      (by omega) (by omega)
    obtain ⟨d, hd, hl, hm⟩ := ih lo ⟨d1, v.bit_count⟩ (sized_of_length hs d1 hl1) hlo
      (by simp only; omega)
    refine ⟨d, ?_, by rw [hl]; exact hl1, ?_⟩
    · rw [e1]
      simp only [loopDown, shlBody, e2, hd1]
      exact hd
    · intro m
      rw [hm m]
      simp only [hm1]
      by_cases h1 : lo ≤ m ∧ m < lo + k
      · have h2 : lo ≤ m ∧ m < lo + (k + 1) := by omega
        have h3 : ¬ m - n = lo + k := by omega
        rw [if_pos h1, if_pos h2, if_neg h3]
      · rw [if_neg h1]
        by_cases h4 : m = lo + k
        · have h2 : lo ≤ m ∧ m < lo + (k + 1) := by omega
          rw [if_pos h4, if_pos h2, h4]
        · have h2 : ¬ (lo ≤ m ∧ m < lo + (k + 1)) := by omega
          rw [if_neg h4, if_neg h2]

theorem shr_copy_loop (n : Nat) :
    ∀ (k lo : Nat) (v : BitArray), Sized v → ((lo + k + n : Nat) : Int) ≤ v.bit_count →
      ∃ d, loopUp (shrBody n) k (lo : Int) v = ⟨none, ⟨d, v.bit_count⟩⟩ ∧
        d.length = v.data.length ∧
        ∀ m, storageBit d m =
          if lo ≤ m ∧ m < lo + k then storageBit v.data (m + n) else storageBit v.data m := by
  intro k
  induction k with
  | zero =>
    intro lo v _ _
    refine ⟨v.data, rfl, rfl, ?_⟩
    intro m
    have : ¬ (lo ≤ m ∧ m < lo + 0) := by omega
    rw [if_neg this]
  | succ k ih =>
    intro lo v hs hk
    have e1 : (lo : Int) + 1 = ((lo + 1 : Nat) : Int) := by omega
    have e2 : (lo : Int) + (n : Int) = ((lo + n : Nat) : Int) := by omega
    obtain ⟨d1, hd1, hl1, hm1⟩ := copy_step hs (i := lo) (j := lo + n) (by omega) (by omega)
    obtain ⟨d, hd, hl, hm⟩ := ih (lo + 1) ⟨d1, v.bit_count⟩ (sized_of_length hs d1 hl1)
      (by simp only; omega)
    refine ⟨d, ?_, by rw [hl]; exact hl1, ?_⟩
    · simp only [loopUp, shrBody, e2, hd1, e1]
      exact hd
    · intro m
      rw [hm m]
      simp only [hm1]
      by_cases h1 : lo + 1 ≤ m ∧ m < lo + 1 + k
      · have h2 : lo ≤ m ∧ m < lo + (k + 1) := by omega
        have h3 : ¬ m + n = lo := by omega
        rw [if_pos h1, if_pos h2, if_neg h3]
      · rw [if_neg h1]
        by_cases h4 : m = lo
        · have h2 : lo ≤ m ∧ m < lo + (k + 1) := by omega
          rw [if_pos h4, if_pos h2, h4]
        · have h2 : ¬ (lo ≤ m ∧ m < lo + (k + 1)) := by omega
          rw [if_neg h4, if_neg h2]

theorem clear_loop :
    ∀ (k lo : Nat) (v : BitArray), Sized v → ((lo + k : Nat) : Int) ≤ v.bit_count →
      ∃ d, loopUp clearBody k (lo : Int) v = ⟨none, ⟨d, v.bit_count⟩⟩ ∧
        d.length = v.data.length ∧
        ∀ m, storageBit d m = if lo ≤ m ∧ m < lo + k then false else storageBit v.data m := by
  intro k
  induction k with
  | zero =>
    intro lo v _ _
    refine ⟨v.data, rfl, rfl, ?_⟩
    intro m
    have : ¬ (lo ≤ m ∧ m < lo + 0) := by omega
    rw [if_neg this]
  | succ k ih =>
    intro lo v hs hk
    have e1 : (lo : Int) + 1 = ((lo + 1 : Nat) : Int) := by omega
    have hlo : (lo : Int) < v.bit_count := by omega
    obtain ⟨d1, hd1, hl1, hm1⟩ := set_nat (byte_in_range hs hlo) hlo false
    obtain ⟨d, hd, hl, hm⟩ := ih (lo + 1) ⟨d1, v.bit_count⟩ (sized_of_length hs d1 hl1)
      (by simp only; omega)
    refine ⟨d, ?_, by rw [hl]; exact hl1, ?_⟩
    · simp only [loopUp, clearBody, hd1, e1]
      exact hd
    · intro m
      rw [hm m]
      simp only [hm1]
      by_cases h1 : lo + 1 ≤ m ∧ m < lo + 1 + k
      · have h2 : lo ≤ m ∧ m < lo + (k + 1) := by omega
        rw [if_pos h1, if_pos h2]
      · rw [if_neg h1]
        by_cases h4 : m = lo
        · have h2 : lo ≤ m ∧ m < lo + (k + 1) := by omega
          rw [if_pos h4, if_pos h2]
        · have h2 : ¬ (lo ≤ m ∧ m < lo + (k + 1)) := by omega
          rw [if_neg h4, if_neg h2]

/-! ## Shifts: the operators -/

theorem storageBit_zeros (d : List Nat) (m : Nat) :
    storageBit (d.map (fun _ => 0x00)) m = false := by
  simp only [storageBit, List.getD_eq_getElem?_getD, List.getElem?_map]
  cases d[m / 8]? <;> simp

theorem shl_ok (dat : List Nat) (N n : Nat) (hs : Sized ⟨dat, N⟩) :
    ∃ d, BitArray.shlAssign ⟨dat, N⟩ n = ⟨none, ⟨d, N⟩⟩ ∧ d.length = dat.length ∧
      (∀ m, m < N → storageBit d m = (decide (n ≤ m) && storageBit dat (m - n))) ∧
      (N ≤ n → d = dat.map (fun _ => 0x00)) ∧
      (∀ m, N ≤ m → storageBit dat m = false → storageBit d m = false) := by
  have hneg : ¬ (n : Int) < 0 := by omega
  by_cases hge : (n : Int) ≥ (N : Int)
  · refine ⟨dat.map (fun _ => 0x00), ?_, by simp, ?_, fun _ => rfl,
      fun m _ _ => storageBit_zeros dat m⟩
    · simp only [shlAssign, hneg, if_false, hge, if_true, reset_all]
    · intro m hm
      have h1 : ¬ n ≤ m := by omega
      rw [storageBit_zeros]
      simp [h1]
  · have hk : ((N : Int) - 1 - (n : Int) + 1).toNat = N - n := by omega
    have hst : (N : Int) - 1 = ((n + (N - n) : Nat) : Int) - 1 := by omega
    obtain ⟨d1, hd1, hl1, hm1⟩ := shl_copy_loop n (N - n) n ⟨dat, N⟩ hs (le_refl _)
      (by simp only; omega)
    obtain ⟨d2, hd2, hl2, hm2⟩ := clear_loop n 0 ⟨d1, N⟩
      (sized_of_length (v := ⟨dat, N⟩) hs d1 hl1) (by simp only; omega)
    refine ⟨d2, ?_, by rw [hl2]; exact hl1, ?_, fun h => absurd h (by omega), ?_⟩
    rotate_left 2
    · intro m hm hpad
      have h2 : ¬ (0 ≤ m ∧ m < 0 + n) := by omega
      have h3 : ¬ (n ≤ m ∧ m < n + (N - n)) := by omega
      rw [hm2 m, if_neg h2, hm1 m, if_neg h3]
      exact hpad
    · have hk2 : ((n : Int) - 0).toNat = n := by omega
      have hrun1 : forDown (shlBody n) ((N : Int) - 1) n ⟨dat, N⟩ = ⟨none, ⟨d1, N⟩⟩ := by
        unfold forDown
        rw [hk, hst]
        exact hd1
      simp only [shlAssign, hneg, if_false, hge, hrun1, forUp, hk2]
      exact_mod_cast hd2
    · intro m hm
      rw [hm2 m, hm1 m]
      by_cases h1 : n ≤ m
      · have h2 : ¬ (0 ≤ m ∧ m < 0 + n) := by omega
        have h3 : n ≤ m ∧ m < n + (N - n) := by omega
        rw [if_neg h2, if_pos h3]
        simp [h1]
      · have h2 : 0 ≤ m ∧ m < 0 + n := by omega
        rw [if_pos h2]
        simp [h1]

theorem shr_ok (dat : List Nat) (N n : Nat) (hs : Sized ⟨dat, N⟩) :
    ∃ d, BitArray.shrAssign ⟨dat, N⟩ n = ⟨none, ⟨d, N⟩⟩ ∧ d.length = dat.length ∧
      (∀ m, m < N → storageBit d m = (decide (m + n < N) && storageBit dat (m + n))) ∧
      (N ≤ n → d = dat.map (fun _ => 0x00)) ∧
      (∀ m, N ≤ m → storageBit dat m = false → storageBit d m = false) := by
  have hneg : ¬ (n : Int) < 0 := by omega
  by_cases hge : (n : Int) ≥ (N : Int)
  · refine ⟨dat.map (fun _ => 0x00), ?_, by simp, ?_, fun _ => rfl,
      fun m _ _ => storageBit_zeros dat m⟩
    · simp only [shrAssign, hneg, if_false, hge, if_true, reset_all]
    · intro m hm
      have h1 : ¬ m + n < N := by omega
      rw [storageBit_zeros]
      simp [h1]
  · have hk : ((N : Int) - (n : Int) - 0).toNat = N - n := by omega
    obtain ⟨d1, hd1, hl1, hm1⟩ := shr_copy_loop n (N - n) 0 ⟨dat, N⟩ hs
      (by simp only; omega)
    obtain ⟨d2, hd2, hl2, hm2⟩ := clear_loop n (N - n) ⟨d1, N⟩
      (sized_of_length (v := ⟨dat, N⟩) hs d1 hl1) (by simp only; omega)
    refine ⟨d2, ?_, by rw [hl2]; exact hl1, ?_, fun h => absurd h (by omega), ?_⟩
    rotate_left 2
    · intro m hm hpad
      have h2 : ¬ (N - n ≤ m ∧ m < N - n + n) := by omega
      have h3 : ¬ (0 ≤ m ∧ m < 0 + (N - n)) := by omega
      rw [hm2 m, if_neg h2, hm1 m, if_neg h3]
      exact hpad
    · have hk2 : ((N : Int) - ((N : Int) - (n : Int))).toNat = n := by omega
      have hst : (N : Int) - (n : Int) = ((N - n : Nat) : Int) := by omega
      have hrun1 : forUp (shrBody n) 0 ((N : Int) - (n : Int)) ⟨dat, N⟩
          = ⟨none, ⟨d1, N⟩⟩ := by
        unfold forUp
        rw [hk]
        exact_mod_cast hd1
      have hrun2 : forUp clearBody ((N : Int) - (n : Int)) (N : Int) ⟨d1, N⟩
          = ⟨none, ⟨d2, N⟩⟩ := by
        unfold forUp
        rw [hk2, hst]
        exact hd2
      simp only [shrAssign, hneg, if_false, hge, hrun1, hrun2]
    · intro m hm
      rw [hm2 m, hm1 m]
      by_cases h1 : m + n < N
      · have h2 : ¬ (N - n ≤ m ∧ m < N - n + n) := by omega
        have h3 : 0 ≤ m ∧ m < 0 + (N - n) := by omega
        rw [if_neg h2, if_pos h3]
        simp [h1]
      · have h2 : N - n ≤ m ∧ m < N - n + n := by omega
        rw [if_pos h2]
        simp [h1]

theorem get_raised (v : BitArray) (index : Int) :
    v.get index ≠ .error .invalid_argument := by
  unfold BitArray.get checkIndex
  by_cases h : index < 0 ∨ index ≥ v.bit_count
  · simp [h]
  · simp only [h, if_false]
    rcases load_cases v.data (getByteIndex index) with ⟨b, hb⟩ | hb <;> rw [hb] <;> simp

theorem copyBody_raised (src : Int → Int) (i : Int) (v : BitArray) :
    (match v.get (src i) with
      | .error e => (⟨some e, v⟩ : Outcome)
      | .ok b => v.set i b).raised ≠ some .invalid_argument := by
  have hg := get_raised v (src i)
  split
  · rename_i e he
    intro h
    simp only [Option.some.injEq] at h
    rw [he, h] at hg
    exact hg rfl
  · exact (set_raised v i _).2.1

theorem shift_invalid (v : BitArray) (n : Int) :
    (((v.shlAssign n).raised = some .invalid_argument ↔ n < 0) ∧
      (n < 0 → v.shlAssign n = ⟨some .invalid_argument, v⟩)) ∧
    (((v.shrAssign n).raised = some .invalid_argument ↔ n < 0) ∧
      (n < 0 → v.shrAssign n = ⟨some .invalid_argument, v⟩)) := by
  have hclear : ∀ k s w, (loopUp clearBody k s w).raised ≠ some .invalid_argument :=
    loopUp_raised_ne _ _ (fun i w => (set_raised w i false).2.1)
  refine ⟨⟨⟨?_, ?_⟩, ?_⟩, ⟨⟨?_, ?_⟩, ?_⟩⟩
  · intro h
    by_contra hn
    simp only [shlAssign, hn, if_false] at h
    split_ifs at h
    · simp [reset_all] at h
    · have h1 := loopDown_raised_ne (shlBody n) .invalid_argument
        (fun i w => copyBody_raised (fun i => i - n) i w)
        (v.bit_count - 1 - n + 1).toNat (v.bit_count - 1) v
      simp only [forDown] at h
      split at h
      · rename_i e v1 heq
        rw [heq] at h1
        exact h1 h
      · exact hclear _ _ _ h
  · intro h; simp [shlAssign, h]
  · intro h; simp [shlAssign, h]
  · intro h
    by_contra hn
    simp only [shrAssign, hn, if_false] at h
    split_ifs at h
    · simp [reset_all] at h
    · have h1 := loopUp_raised_ne (shrBody n) .invalid_argument
        (fun i w => copyBody_raised (fun i => i + n) i w)
        (v.bit_count - n - 0).toNat 0 v
      simp only [forUp] at h
      split at h
      · rename_i e v1 heq
        rw [heq] at h1
        exact h1 h
      · exact hclear _ _ _ h
  · intro h; simp [shrAssign, h]
  · intro h; simp [shrAssign, h]

/-! ## `operator==`, `none()` -/

theorem eq_loop_ok (a b : BitArray) (hsa : Sized a) (hsb : Sized b)
    (heq : a.bit_count = b.bit_count) :
    ∀ (k s : Nat), ((s + k : Nat) : Int) ≤ a.bit_count →
      ∃ r, eq_loop a b k (s : Int) = .ok r ∧
        (r = true ↔ ∀ m, s ≤ m → m < s + k → storageBit a.data m = storageBit b.data m) := by
  intro k
  induction k with
  | zero =>
    intro s _
    refine ⟨true, rfl, ?_⟩
    simp only [true_iff]
    intro m h1 h2
    omega
  | succ k ih =>
    intro s hk
    have hsa1 : (s : Int) < a.bit_count := by omega
    have hsb1 : (s : Int) < b.bit_count := by omega
    have e1 : (s : Int) + 1 = ((s + 1 : Nat) : Int) := by omega
    obtain ⟨r, hr, hiff⟩ := ih (s + 1) (by omega)
    by_cases hx : storageBit a.data s = storageBit b.data s
    · refine ⟨r, ?_, ?_⟩
      · simp only [eq_loop, get_nat (byte_in_range hsa hsa1) hsa1,
          get_nat (byte_in_range hsb hsb1) hsb1, hx, bne_self_eq_false, Bool.false_eq_true,
          if_false, e1]
        exact hr
      · rw [hiff]
        constructor
        · intro h m h1 h2
          by_cases hm : m = s
          · rw [hm]; exact hx
          · exact h m (by omega) (by omega)
        · intro h m h1 h2
          exact h m (by omega) (by omega)
    · refine ⟨false, ?_, ?_⟩
      · have hne : (storageBit a.data s != storageBit b.data s) = true := by
          simpa using hx
        simp only [eq_loop, get_nat (byte_in_range hsa hsa1) hsa1,
          get_nat (byte_in_range hsb hsb1) hsb1, hne, if_true]
      · simp only [Bool.false_eq_true, false_iff]
        intro h
        exact hx (h s (le_refl _) (by omega))

theorem op_eq_ok (a b : BitArray) (hsa : Sized a) (hsb : Sized b) :
    ∃ r, op_eq a b = .ok r ∧
      (r = true ↔ a.size = b.size ∧
        ∀ m : Nat, (m : Int) < a.size → storageBit a.data m = storageBit b.data m) := by
  by_cases hsz : a.size = b.size
  · obtain ⟨N, hN⟩ := Int.eq_ofNat_of_zero_le hsa.1
    have hk : (a.size - 0).toNat = N := by simp only [BitArray.size, hN]; omega
    obtain ⟨r, hr, hiff⟩ := eq_loop_ok a b hsa hsb hsz N 0 (by rw [hN]; omega)
    refine ⟨r, ?_, ?_⟩
    · simp only [op_eq, hsz, ne_eq, not_true_eq_false, if_false]
      rw [← hsz, hk]
      exact_mod_cast hr
    · rw [hiff]
      simp only [hsz, true_and, BitArray.size, ← (show a.bit_count = b.bit_count from hsz), hN]
      constructor
      · intro h m hm
        exact h m (by omega) (by omega)
      · intro h m _ hm
        exact h m (by omega)
  · refine ⟨false, by simp [op_eq, hsz], by simp [hsz]⟩

theorem none_zeros (d : List Nat) (n : Int) :
    BitArray.none ⟨d.map (fun _ => 0x00), n⟩ = true := by
  simp [BitArray.none, BitArray.any]

theorem op_eq_true (a b : BitArray) (hsa : Sized a) (hsb : Sized b) (hsz : a.size = b.size)
    (hbits : ∀ m : Nat, (m : Int) < a.size → storageBit a.data m = storageBit b.data m) :
    op_eq a b = .ok true := by
  obtain ⟨r, hr, hiff⟩ := op_eq_ok a b hsa hsb
  have : r = true := hiff.2 ⟨hsz, hbits⟩
  rw [hr, this]

theorem zeros_mem (d : List Nat) : ∀ b ∈ d.map (fun _ => 0x00), b = 0 := by
  intro b hb
  simp only [List.mem_map] at hb
  obtain ⟨_, _, rfl⟩ := hb
  rfl

/-! ## The shift operators: statements -/

/-- C9: `v <<= n` raises `invalid_argument` exactly when `n < 0`, leaving `v` unchanged; on a
vector with `ceil(bit_count / 8)` storage bytes and `n ≥ 0` it returns normally, keeps the
size, and bit `i` of the result is `i ≥ n` and the old `v[i - n]`; `v << 0 == v`; for
`n ≥ size()` every storage byte is zero and `none()` holds; `BitArray(8, 0b00001011) << 2`
renders as `"00101100"`. -/
theorem shl_spec (v : BitArray) (n : Int) :
    ((v.shlAssign n).raised = some .invalid_argument ↔ n < 0) ∧
    (n < 0 → v.shlAssign n = ⟨some .invalid_argument, v⟩) ∧
    (Sized v → 0 ≤ n → ∃ r, v.shlAssign n = ⟨none, r⟩ ∧ v.shl n = .ok r ∧ r.size = v.size ∧
      (∀ i : Int, 0 ≤ i → i < v.size →
        r.get i = if i ≥ n then v.get (i - n) else .ok false) ∧
      (n ≥ v.size → (∀ b ∈ r.data, b = 0) ∧ r.none = true)) ∧
    (Sized v → ∃ r, v.shl 0 = .ok r ∧ op_eq r v = .ok true) ∧
    (∀ w, 0 < w → ∃ v8 r, ctor w 8 0b00001011 = .ok v8 ∧ v8.shl 2 = .ok r ∧
      r.to_string = .ok "00101100") := by
  have hshl : BitArray.shl ⟨[0b00001011 &&& 0xFF], 8⟩ 2 = .ok ⟨[0x2C], 8⟩ := by decide
  have hstr : BitArray.to_string ⟨[0x2C], 8⟩ = .ok "00101100" := by decide
  refine ⟨(shift_invalid v n).1.1, (shift_invalid v n).1.2, ?_, ?_, ?_⟩
  · intro hs hn
    obtain ⟨dat, bc⟩ := v
    obtain ⟨N, rfl⟩ := Int.eq_ofNat_of_zero_le hs.1
    obtain ⟨k, rfl⟩ := Int.eq_ofNat_of_zero_le hn
    obtain ⟨d, hd, hl, hm, hz, _⟩ := shl_ok dat N k hs
    have hsr : Sized ⟨d, N⟩ := sized_of_length (v := ⟨dat, N⟩) hs d hl
    refine ⟨⟨d, N⟩, hd, by simp only [shl, hd, returned], rfl, ?_, ?_⟩
    · intro i hi0 hi1
      obtain ⟨m, rfl⟩ := Int.eq_ofNat_of_zero_le hi0
      simp only [BitArray.size] at hi1
      rw [get_nat (v := ⟨d, N⟩) (byte_in_range hsr hi1) hi1, hm m (by omega)]
      by_cases hkm : k ≤ m
      · have h1 : (m : Int) ≥ (k : Int) := by omega
        have h2 : (m : Int) - (k : Int) = ((m - k : Nat) : Int) := by omega
        have h3 : ((m - k : Nat) : Int) < (N : Int) := by omega
        rw [if_pos h1, h2, get_nat (v := ⟨dat, N⟩) (byte_in_range hs h3) h3]
        simp [hkm]
      · have h1 : ¬ (m : Int) ≥ (k : Int) := by omega
        rw [if_neg h1]
        simp [hkm]
    · intro hge
      simp only [BitArray.size] at hge
      rw [hz (by omega)]
      exact ⟨zeros_mem dat, none_zeros dat _⟩
  · intro hs
    obtain ⟨dat, bc⟩ := v
    obtain ⟨N, rfl⟩ := Int.eq_ofNat_of_zero_le hs.1
    obtain ⟨d, hd, hl, hm, _⟩ := shl_ok dat N 0 hs
    have hsr : Sized ⟨d, N⟩ := sized_of_length (v := ⟨dat, N⟩) hs d hl
    simp only [Nat.cast_zero] at hd
    refine ⟨⟨d, N⟩, by simp only [shl, hd, returned], ?_⟩
    apply op_eq_true _ _ hsr hs rfl
    intro m hm1
    simp only [BitArray.size] at hm1
    rw [hm m (by omega)]
    simp
  · intro w hw
    exact ⟨_, _, ctor_eight w hw _, hshl, hstr⟩

theorem shl_spec_witness :
    ∃ r, BitArray.shlAssign ⟨[0x0B], 8⟩ 2 = ⟨none, r⟩ ∧
      BitArray.shl ⟨[0x0B], 8⟩ 2 = .ok r ∧ r.size = (⟨[0x0B], 8⟩ : BitArray).size ∧
      (∀ i : Int, 0 ≤ i → i < (⟨[0x0B], 8⟩ : BitArray).size →
        r.get i = if i ≥ 2 then (⟨[0x0B], 8⟩ : BitArray).get (i - 2) else .ok false) ∧
      ((2 : Int) ≥ (⟨[0x0B], 8⟩ : BitArray).size → (∀ b ∈ r.data, b = 0) ∧ r.none = true) :=
  (shl_spec ⟨[0x0B], 8⟩ 2).2.2.1 (by decide) (by decide)

/-- C10: `v >>= n` raises `invalid_argument` exactly when `n < 0`, leaving `v` unchanged; on
a vector with `ceil(bit_count / 8)` storage bytes and `n ≥ 0` it returns normally, keeps the
size, and bit `i` of the result is `i + n < size()` and the old `v[i + n]` (padding bits are
never shifted in); `v >> 0 == v`; for `n ≥ size()` every storage byte is zero and `none()`
holds; `BitArray(8, 0b00001011) >> 2` renders as `"00000010"`. -/
theorem shr_spec (v : BitArray) (n : Int) :
    ((v.shrAssign n).raised = some .invalid_argument ↔ n < 0) ∧
    (n < 0 → v.shrAssign n = ⟨some .invalid_argument, v⟩) ∧
    (Sized v → 0 ≤ n → ∃ r, v.shrAssign n = ⟨none, r⟩ ∧ v.shr n = .ok r ∧ r.size = v.size ∧
      (∀ i : Int, 0 ≤ i → i < v.size →
        r.get i = if i + n < v.size then v.get (i + n) else .ok false) ∧
      (n ≥ v.size → (∀ b ∈ r.data, b = 0) ∧ r.none = true)) ∧
    (Sized v → ∃ r, v.shr 0 = .ok r ∧ op_eq r v = .ok true) ∧
    (∀ w, 0 < w → ∃ v8 r, ctor w 8 0b00001011 = .ok v8 ∧ v8.shr 2 = .ok r ∧
      r.to_string = .ok "00000010") := by
  have hshr : BitArray.shr ⟨[0b00001011 &&& 0xFF], 8⟩ 2 = .ok ⟨[0x02], 8⟩ := by decide
  have hstr : BitArray.to_string ⟨[0x02], 8⟩ = .ok "00000010" := by decide
  refine ⟨(shift_invalid v n).2.1, (shift_invalid v n).2.2, ?_, ?_, ?_⟩
  · intro hs hn
    obtain ⟨dat, bc⟩ := v
    obtain ⟨N, rfl⟩ := Int.eq_ofNat_of_zero_le hs.1
    obtain ⟨k, rfl⟩ := Int.eq_ofNat_of_zero_le hn
    obtain ⟨d, hd, hl, hm, hz, _⟩ := shr_ok dat N k hs
    have hsr : Sized ⟨d, N⟩ := sized_of_length (v := ⟨dat, N⟩) hs d hl
    refine ⟨⟨d, N⟩, hd, by simp only [shr, hd, returned], rfl, ?_, ?_⟩
    · intro i hi0 hi1
      obtain ⟨m, rfl⟩ := Int.eq_ofNat_of_zero_le hi0
      simp only [BitArray.size] at hi1 ⊢
      rw [get_nat (v := ⟨d, N⟩) (byte_in_range hsr hi1) hi1, hm m (by omega)]
      by_cases hkm : m + k < N
      · have h1 : (m : Int) + (k : Int) < (N : Int) := by omega
        have h2 : (m : Int) + (k : Int) = ((m + k : Nat) : Int) := by omega
        have h3 : ((m + k : Nat) : Int) < (N : Int) := by omega
        rw [if_pos h1, h2, get_nat (v := ⟨dat, N⟩) (byte_in_range hs h3) h3]
        simp [hkm]
      · have h1 : ¬ (m : Int) + (k : Int) < (N : Int) := by omega
        rw [if_neg h1]
        simp [hkm]
    · intro hge
      simp only [BitArray.size] at hge
      rw [hz (by omega)]
      exact ⟨zeros_mem dat, none_zeros dat _⟩
  · intro hs
    obtain ⟨dat, bc⟩ := v
    obtain ⟨N, rfl⟩ := Int.eq_ofNat_of_zero_le hs.1
    obtain ⟨d, hd, hl, hm, _⟩ := shr_ok dat N 0 hs
    have hsr : Sized ⟨d, N⟩ := sized_of_length (v := ⟨dat, N⟩) hs d hl
    simp only [Nat.cast_zero] at hd
    refine ⟨⟨d, N⟩, by simp only [shr, hd, returned], ?_⟩
    apply op_eq_true _ _ hsr hs rfl
    intro m hm1
    simp only [BitArray.size] at hm1
    have hmN : m < N := by omega
    rw [hm m hmN]
    simp [hmN]
  · intro w hw
    exact ⟨_, _, ctor_eight w hw _, hshr, hstr⟩

theorem shr_spec_witness :
    ∃ r, BitArray.shrAssign ⟨[0x0B], 8⟩ 2 = ⟨none, r⟩ ∧
      BitArray.shr ⟨[0x0B], 8⟩ 2 = .ok r ∧ r.size = (⟨[0x0B], 8⟩ : BitArray).size ∧
      (∀ i : Int, 0 ≤ i → i < (⟨[0x0B], 8⟩ : BitArray).size →
        r.get i = if i + 2 < (⟨[0x0B], 8⟩ : BitArray).size
          then (⟨[0x0B], 8⟩ : BitArray).get (i + 2) else .ok false) ∧
      ((2 : Int) ≥ (⟨[0x0B], 8⟩ : BitArray).size → (∀ b ∈ r.data, b = 0) ∧ r.none = true) :=
  (shr_spec ⟨[0x0B], 8⟩ 2).2.2.1 (by decide) (by decide)

/-! ## Unary complement -/

theorem testBit_invert (b t : Nat) (ht : t < 8) :
    (bitNot32 b % 256).testBit t = !b.testBit t := by
  have hlt : b % 2 ^ 32 < 2 ^ 32 := Nat.mod_lt _ (by norm_num)
  have e : bitNot32 b = 2 ^ 32 - (b % 2 ^ 32 + 1) := by
    simp only [bitNot32]
    omega
  have e8 : (256 : Nat) = 2 ^ 8 := by norm_num
  have ht32 : t < 32 := by omega
  rw [e8, Nat.testBit_mod_two_pow, e, Nat.testBit_two_pow_sub_succ hlt, Nat.testBit_mod_two_pow]
  simp [ht, ht32]

theorem storageBit_map (f : Nat → Nat) (d : List Nat) (m : Nat) (h : m / 8 < d.length) :
    storageBit (d.map f) m = (f (d.getD (m / 8) 0)).testBit (m % 8) := by
  simp only [storageBit, List.getD_eq_getElem?_getD, List.getElem?_map,
    List.getElem?_eq_getElem h, Option.map_some', Option.getD_some]

theorem complement_ok (dat : List Nat) (N : Nat) (hs : Sized ⟨dat, N⟩) :
    ∃ d, complement ⟨dat, N⟩ = .ok ⟨d, N⟩ ∧ d.length = dat.length ∧
      ∀ m, storageBit d m = (decide (m < N) && !storageBit dat m) := by
  have hs1 : Sized ⟨dat.map (fun byte => bitNot32 byte % 256), N⟩ :=
    sized_of_length (v := ⟨dat, N⟩) hs _ (by simp)
  obtain ⟨d, hd, hl, hm⟩ := maskLast_ok _ N hs1
  refine ⟨d, ?_, by simpa using hl, ?_⟩
  · simp only [complement, hd, returned]
  · intro m
    rw [hm m]
    by_cases h : m < N
    · have hb : m / 8 < dat.length := byte_in_range (v := ⟨dat, N⟩) hs (by simp only; omega)
      rw [storageBit_map _ _ _ hb, testBit_invert _ _ (Nat.mod_lt _ (by decide))]
      simp [h, storageBit]
    · simp [h]

theorem paddingZero_of_bits (d : List Nat) (N : Nat) (f : Nat → Bool)
    (hm : ∀ m, storageBit d m = (decide (m < N) && f m)) : PaddingZero ⟨d, N⟩ := by
  intro j hj
  have h : ¬ j < N := by simp only at hj; omega
  rw [hm j]
  simp [h]

/-- C11: on a vector with `ceil(bit_count / 8)` storage bytes, whatever its padding bits,
`~v` returns a vector `r` with `r.size() = v.size()`, `r[i] = !v[i]` for every `i < size()`,
the same storage length, and all padding bits zero (I1); `v` itself is only read. -/
theorem complement_spec (v : BitArray) (hs : Sized v) :
    ∃ r, v.complement = .ok r ∧ r.size = v.size ∧ Sized r ∧ PaddingZero r ∧
      ∀ i : Int, 0 ≤ i → i < v.size →
        ∃ x, v.get i = .ok x ∧ r.get i = .ok (!x) := by
  obtain ⟨dat, bc⟩ := v
  obtain ⟨N, rfl⟩ := Int.eq_ofNat_of_zero_le hs.1
  obtain ⟨d, hd, hl, hm⟩ := complement_ok dat N hs
  have hsr : Sized ⟨d, N⟩ := sized_of_length (v := ⟨dat, N⟩) hs d hl
  refine ⟨⟨d, N⟩, hd, rfl, hsr, paddingZero_of_bits d N _ hm, ?_⟩
  intro i hi0 hi1
  obtain ⟨m, rfl⟩ := Int.eq_ofNat_of_zero_le hi0
  simp only [BitArray.size] at hi1
  have hmN : m < N := by omega
  refine ⟨_, get_nat (v := ⟨dat, N⟩) (byte_in_range hs hi1) hi1, ?_⟩
  rw [get_nat (v := ⟨d, N⟩) (byte_in_range hsr hi1) hi1, hm m]
  simp [hmN]

theorem complement_spec_witness :
    ∃ r, BitArray.complement ⟨[0xFD], 3⟩ = .ok r ∧ r.size = (⟨[0xFD], 3⟩ : BitArray).size ∧
      Sized r ∧ PaddingZero r ∧
      ∀ i : Int, 0 ≤ i → i < (⟨[0xFD], 3⟩ : BitArray).size →
        ∃ x, (⟨[0xFD], 3⟩ : BitArray).get i = .ok x ∧ r.get i = .ok (!x) :=
  complement_spec ⟨[0xFD], 3⟩ (by decide)

/-! ## `count()` -/

theorem countP_range_succ (p : Nat → Bool) (k : Nat) :
    (List.range (k + 1)).countP p
      = (if p 0 then 1 else 0) + (List.range k).countP (fun t => p (t + 1)) := by
  rw [List.range_succ_eq_map, List.countP_cons, List.countP_map]
  have : (p ∘ Nat.succ) = fun t => p (t + 1) := rfl
  rw [this]
  omega

theorem count_while_bits :
    ∀ (k : Nat), k ≤ 8 → ∀ (b : Nat) (result : Int), b < 2 ^ k →
      count_while b result = result + ((List.range k).countP (fun t => b.testBit t) : Nat) := by
  intro k
  induction k with
  | zero =>
    intro _ b result hb
    have hb0 : b = 0 := by simpa using hb
    subst hb0
    rw [count_while]
    simp
  | succ k ih =>
    intro hk b result hb
    rw [count_while]
    by_cases h0 : b = 0
    · subst h0
      simp
    · have hshift : b >>> 1 = b / 2 := by simp [Nat.shiftRight_eq_div_pow]
      have hlt : b / 2 < 2 ^ k := by
        rw [Nat.pow_succ] at hb
        omega
      have h256 : b / 2 < 256 := by
        have : 2 ^ k ≤ 2 ^ 8 := Nat.pow_le_pow_right (by decide) (by omega)
        omega
      have hand : b &&& 1 = b % 2 := by simp
      have htb : ∀ t, b.testBit (t + 1) = (b / 2).testBit t := by
        intro t
        rw [Nat.testBit_succ]
      have ht0 : b.testBit 0 = decide (b % 2 = 1) := Nat.testBit_zero b
      rw [if_pos h0, hshift, Nat.mod_eq_of_lt h256, ih (by omega) _ _ hlt, hand,
        countP_range_succ, ht0]
      simp only [htb]
      rcases Nat.mod_two_eq_zero_or_one b with h | h <;> simp [h]
      omega

theorem count_while_byte (b : Nat) (result : Int) (hb : b < 256) :
    count_while b result = result + (onesInByte b : Nat) :=
  count_while_bits 8 (le_refl _) b result (by simpa using hb)

theorem count_fold (d : List Nat) (hb : ∀ b ∈ d, b < 256) :
    ∀ result : Int, d.foldl (fun result byte => count_while byte result) result
      = result + ((d.map onesInByte).sum : Nat) := by
  induction d with
  | nil => intro result; simp
  | cons b rest ih =>
    intro result
    have h1 : b < 256 := hb b (List.mem_cons_self _ _)
    have h2 : ∀ x ∈ rest, x < 256 := fun x hx => hb x (List.mem_cons_of_mem _ hx)
    simp only [List.foldl_cons, List.map_cons, List.sum_cons, count_while_byte b result h1]
    rw [ih h2]
    push_cast
    ring

theorem storageBit_cons_lt (b : Nat) (rest : List Nat) (t : Nat) (ht : t < 8) :
    storageBit (b :: rest) t = b.testBit t := by
  have h1 : t / 8 = 0 := by omega
  have h2 : t % 8 = t := by omega
  simp [storageBit, h1, h2]

theorem storageBit_cons_add (b : Nat) (rest : List Nat) (m : Nat) :
    storageBit (b :: rest) (8 + m) = storageBit rest m := by
  have h1 : (8 + m) / 8 = m / 8 + 1 := by omega
  have h2 : (8 + m) % 8 = m % 8 := by omega
  simp [storageBit, h1, h2]

theorem ones_eq_countP (d : List Nat) :
    (d.map onesInByte).sum = (List.range (8 * d.length)).countP (storageBit d) := by
  induction d with
  | nil => simp
  | cons b rest ih =>
    have e : 8 * (b :: rest).length = 8 + 8 * rest.length := by
      simp only [List.length_cons]; omega
    rw [e, List.range_add, List.countP_append, List.countP_map, List.map_cons, List.sum_cons, ih]
    have hhead : onesInByte b = (List.range 8).countP (storageBit (b :: rest)) := by
      unfold onesInByte
      apply List.countP_congr
      intro t ht
      rw [storageBit_cons_lt b rest t (by simpa using ht)]
    have htail : (List.range (8 * rest.length)).countP (storageBit rest)
        = (List.range (8 * rest.length)).countP (storageBit (b :: rest) ∘ fun x => 8 + x) := by
      apply List.countP_congr
      intro m _
      simp only [Function.comp, storageBit_cons_add]
    rw [hhead, htail]

theorem countP_padding (d : List Nat) (N : Nat) (hs : Sized ⟨d, N⟩) (hp : PaddingZero ⟨d, N⟩) :
    (List.range (8 * d.length)).countP (storageBit d)
      = (List.range N).countP (storageBit d) := by
  obtain ⟨_, h1, _⟩ := hs
  simp only at h1
  have e : 8 * d.length = N + (8 * d.length - N) := by omega
  rw [e, List.range_add, List.countP_append, List.countP_map]
  have hz : (List.range (8 * d.length - N)).countP (storageBit d ∘ fun x => N + x) = 0 := by
    rw [List.countP_eq_zero]
    intro m _
    simp only [Function.comp]
    rw [hp (N + m) (by simp only; omega)]
    simp
  rw [hz]
  rfl

/-- C12: with every storage byte an `unsigned char`, `count()` is the sum over the storage
bytes of the number of `1` bits of each byte (the shift-and-mask loop is a total function);
on a vector satisfying I1 and I2 it is the number of indices `i < size()` with `v[i]` set;
and `BitArray(8, 0b00001011).count() == 3`. -/
theorem count_spec (v : BitArray) (hb : Bytes v) :
    v.count = ((v.data.map onesInByte).sum : Nat) ∧
    (Sized v → PaddingZero v →
      v.count = ((List.range v.size.toNat).countP
        (fun i : Nat => decide (v.get (i : Int) = .ok true)) : Nat)) ∧
    (∀ w, 0 < w → ∃ v8, ctor w 8 0b00001011 = .ok v8 ∧ v8.count = 3) := by
  have hsum : v.count = ((v.data.map onesInByte).sum : Nat) := by
    simp only [BitArray.count, count_fold v.data hb 0, zero_add]
  refine ⟨hsum, ?_, ?_⟩
  · intro hs hp
    obtain ⟨dat, bc⟩ := v
    obtain ⟨N, rfl⟩ := Int.eq_ofNat_of_zero_le hs.1
    rw [hsum]
    simp only [BitArray.size, Int.toNat_ofNat]
    rw [ones_eq_countP, countP_padding dat N hs hp]
    congr 1
    apply List.countP_congr
    intro m hm
    have hmN : ((m : Nat) : Int) < (N : Int) := by
      have := List.mem_range.1 hm
      omega
    rw [get_nat (v := ⟨dat, N⟩) (byte_in_range hs hmN) hmN]
    simp
  · intro w hw
    refine ⟨_, ctor_eight w hw _, ?_⟩
    have hb8 : Bytes ⟨[0b00001011 &&& 0xFF], 8⟩ := by
      intro b hb
      simp only [List.mem_singleton] at hb
      subst hb
      decide
    simp only [BitArray.count, count_fold _ hb8 0, zero_add]
    decide

theorem count_spec_witness :
    (⟨[0x0B], 8⟩ : BitArray).count
      = (((⟨[0x0B], 8⟩ : BitArray).data.map onesInByte).sum : Nat) ∧
    (Sized ⟨[0x0B], 8⟩ → PaddingZero ⟨[0x0B], 8⟩ →
      (⟨[0x0B], 8⟩ : BitArray).count = ((List.range (⟨[0x0B], 8⟩ : BitArray).size.toNat).countP
        (fun i : Nat => decide ((⟨[0x0B], 8⟩ : BitArray).get (i : Int) = .ok true)) : Nat)) ∧
    (∀ w, 0 < w → ∃ v8, ctor w 8 0b00001011 = .ok v8 ∧ v8.count = 3) :=
  count_spec ⟨[0x0B], 8⟩ (by
    intro b hb
    simp only [List.mem_singleton] at hb
    subst hb
    decide)

/-! ## `any()` and `none()` -/

theorem any_iff_byte (v : BitArray) : v.any = true ↔ ∃ b ∈ v.data, b ≠ 0 := by
  simp [BitArray.any]

theorem byte_has_bit (b : Nat) (hb : b < 256) (h0 : b ≠ 0) : ∃ t, t < 8 ∧ b.testBit t = true := by
  obtain ⟨t, ht⟩ := Nat.ne_zero_implies_bit_true h0
  refine ⟨t, ?_, ht⟩
  by_contra h8
  have hle : 2 ^ 8 ≤ 2 ^ t := Nat.pow_le_pow_right (by decide) (by omega)
  have hlt : b < 2 ^ t := by omega
  rw [Nat.testBit_lt_two_pow hlt] at ht
  exact Bool.false_ne_true ht

theorem any_iff_bit (d : List Nat) (hb : ∀ b ∈ d, b < 256) :
    (∃ b ∈ d, b ≠ 0) ↔ ∃ m, storageBit d m = true := by
  constructor
  · rintro ⟨b, hmem, h0⟩
    obtain ⟨j, hj⟩ := List.mem_iff_getElem?.1 hmem
    obtain ⟨t, ht8, ht⟩ := byte_has_bit b (hb b hmem) h0
    refine ⟨8 * j + t, ?_⟩
    have h1 : (8 * j + t) / 8 = j := by omega
    have h2 : (8 * j + t) % 8 = t := by omega
    simp only [storageBit, h1, h2, List.getD_eq_getElem?_getD, hj, Option.getD_some, ht]
  · rintro ⟨m, hm⟩
    simp only [storageBit, List.getD_eq_getElem?_getD] at hm
    cases hg : d[m / 8]? with
    | none =>
      rw [hg] at hm
      simp at hm
    | some b =>
      rw [hg] at hm
      refine ⟨b, List.getElem?_mem hg, ?_⟩
      intro h0
      subst h0
      simp at hm

/-- C14: `any()` is true exactly when some storage byte is nonzero and `none()` is its
negation; on a vector satisfying I1 and I2 whose bytes are `unsigned char`, `any()` is true
exactly when some index `i` in `[0, size())` has `v[i]` set; `any()` is false on the empty
vector. -/
theorem any_spec (v : BitArray) :
    (v.any = true ↔ ∃ b ∈ v.data, b ≠ 0) ∧
    v.none = !v.any ∧
    (Bytes v → Sized v → PaddingZero v →
      (v.any = true ↔ ∃ i : Int, 0 ≤ i ∧ i < v.size ∧ v.get i = .ok true)) ∧
    (Sized v → v.size = 0 → v.any = false) ∧
    empty_ctor.any = false := by
  refine ⟨any_iff_byte v, rfl, ?_, ?_, rfl⟩
  · intro hb hs hp
    rw [any_iff_byte, any_iff_bit v.data hb]
    constructor
    · rintro ⟨m, hm⟩
      have hlt : (m : Int) < v.bit_count := by
        by_contra hge
        rw [hp m (by omega)] at hm
        exact Bool.false_ne_true hm
      refine ⟨m, by omega, hlt, ?_⟩
      rw [get_nat (byte_in_range hs hlt) hlt, hm]
    · rintro ⟨i, hi0, hi1, hget⟩
      obtain ⟨m, rfl⟩ := Int.eq_ofNat_of_zero_le hi0
      rw [get_nat (byte_in_range hs hi1) hi1] at hget
      exact ⟨m, by simpa using hget⟩
  · intro hs h0
    obtain ⟨_, _, h2⟩ := hs
    simp only [BitArray.size] at h0
    have hl : v.data.length = 0 := by omega
    have hnil : v.data = [] := List.length_eq_zero.1 hl
    simp [BitArray.any, hnil]

theorem any_spec_witness :
    (⟨[0x05], 3⟩ : BitArray).any = true ↔
      ∃ i : Int, 0 ≤ i ∧ i < (⟨[0x05], 3⟩ : BitArray).size ∧
        (⟨[0x05], 3⟩ : BitArray).get i = .ok true :=
  (any_spec ⟨[0x05], 3⟩).2.2.1
    (by
      intro b hb
      simp only [List.mem_singleton] at hb
      subst hb
      decide)
    (by decide)
    (by
      intro j hj
      have h3 : 3 ≤ j := by simp only at hj; omega
      by_cases h8 : j < 8
      · interval_cases j <;> decide
      · exact storageBit_of_le _ _ (by simp only [List.length_singleton]; omega))

/-! ## Equality -/

theorem bits_iff_get (a b : BitArray) (hsa : Sized a) (hsb : Sized b) (hsz : a.size = b.size) :
    (∀ m : Nat, (m : Int) < a.size → storageBit a.data m = storageBit b.data m) ↔
      ∀ i : Int, 0 ≤ i → i < a.size → a.get i = b.get i := by
  simp only [BitArray.size] at hsz ⊢
  constructor
  · intro h i hi0 hi1
    obtain ⟨m, rfl⟩ := Int.eq_ofNat_of_zero_le hi0
    have hi2 : (m : Int) < b.bit_count := by omega
    rw [get_nat (byte_in_range hsa hi1) hi1, get_nat (byte_in_range hsb hi2) hi2, h m hi1]
  · intro h m hm
    have hm2 : (m : Int) < b.bit_count := by omega
    have := h m (by omega) hm
    rw [get_nat (byte_in_range hsa hm) hm, get_nat (byte_in_range hsb hm2) hm2] at this
    exact Except.ok.inj this

/-- C15: for vectors with `ceil(bit_count / 8)` storage bytes, `a == b` returns (never
raises) and is true exactly when the sizes are equal and `a[i] == b[i]` for every
`i < size()`; vectors of different size compare unequal; `a != b` is the negation of
`a == b`; and a vector equals its own copy. -/
theorem eq_spec (a b : BitArray) (hsa : Sized a) (hsb : Sized b) :
    (∃ r, op_eq a b = .ok r ∧ op_ne a b = .ok (!r) ∧
      (r = true ↔ a.size = b.size ∧
        ∀ i : Int, 0 ≤ i → i < a.size → a.get i = b.get i)) ∧
    (a.size ≠ b.size → op_eq a b = .ok false) ∧
    op_eq a a = .ok true := by
  obtain ⟨r, hr, hiff⟩ := op_eq_ok a b hsa hsb
  refine ⟨⟨r, hr, by simp only [op_ne, hr], ?_⟩, ?_, ?_⟩
  · rw [hiff]
    constructor
    · rintro ⟨hsz, hbits⟩
      exact ⟨hsz, (bits_iff_get a b hsa hsb hsz).1 hbits⟩
    · rintro ⟨hsz, hget⟩
      exact ⟨hsz, (bits_iff_get a b hsa hsb hsz).2 hget⟩
  · intro hne
    simp [op_eq, hne]
  · exact op_eq_true a a hsa hsa rfl (fun _ _ => rfl)

theorem eq_spec_witness :
    (∃ r, op_eq ⟨[0x05], 3⟩ ⟨[0xFD], 3⟩ = .ok r ∧ op_ne ⟨[0x05], 3⟩ ⟨[0xFD], 3⟩ = .ok (!r) ∧
      (r = true ↔ (⟨[0x05], 3⟩ : BitArray).size = (⟨[0xFD], 3⟩ : BitArray).size ∧
        ∀ i : Int, 0 ≤ i → i < (⟨[0x05], 3⟩ : BitArray).size →
          (⟨[0x05], 3⟩ : BitArray).get i = (⟨[0xFD], 3⟩ : BitArray).get i)) ∧
    ((⟨[0x05], 3⟩ : BitArray).size ≠ (⟨[0xFD], 3⟩ : BitArray).size →
      op_eq ⟨[0x05], 3⟩ ⟨[0xFD], 3⟩ = .ok false) ∧
    op_eq ⟨[0x05], 3⟩ ⟨[0x05], 3⟩ = .ok true :=
  eq_spec ⟨[0x05], 3⟩ ⟨[0xFD], 3⟩ (by decide) (by decide)

/-! ## Algebraic identities -/

theorem sized_ctor (w : Nat) (num_bits : Int) (value : Nat) (h : 0 ≤ num_bits)
    (hmax : num_bits ≤ INT_MAX - 7) :
    ∃ v, ctor w num_bits value = .ok v ∧ Sized v := by
  obtain ⟨d, hd, hlen, _⟩ := ctor_ok w num_bits value h hmax
  exact ⟨⟨d, num_bits⟩, hd, h, hlen.1, hlen.2⟩

theorem sized_of_ctor (w : Nat) (num_bits : Int) (value : Nat) (c : BitArray)
    (hint : num_bits ≤ INT_MAX) (hc : ctor w num_bits value = .ok c) : Sized c := by
  by_cases hneg : num_bits < 0
  · simp [ctor, hneg] at hc
  · by_cases hmax : num_bits ≤ INT_MAX - 7
    · obtain ⟨v, hv, hsv⟩ := sized_ctor w num_bits value (by omega) hmax
      rw [hv] at hc
      rw [← Except.ok.inj hc]
      exact hsv
    · rw [ctor_overflow w num_bits value (by omega) hint] at hc
      cases hc

theorem complement_twice (v : BitArray) (hs : Sized v) :
    ∃ r1 r2, v.complement = .ok r1 ∧ r1.complement = .ok r2 ∧ op_eq r2 v = .ok true := by
  obtain ⟨dat, bc⟩ := v
  obtain ⟨N, rfl⟩ := Int.eq_ofNat_of_zero_le hs.1
  obtain ⟨d1, hd1, hl1, hm1⟩ := complement_ok dat N hs
  have hs1 : Sized ⟨d1, N⟩ := sized_of_length (v := ⟨dat, N⟩) hs d1 hl1
  obtain ⟨d2, hd2, hl2, hm2⟩ := complement_ok d1 N hs1
  have hs2 : Sized ⟨d2, N⟩ := sized_of_length (v := ⟨d1, N⟩) hs1 d2 hl2
  refine ⟨_, _, hd1, hd2, op_eq_true _ _ hs2 hs rfl ?_⟩
  intro m hm
  simp only [BitArray.size] at hm
  have hmN : m < N := by omega
  rw [hm2 m, hm1 m]
  simp [hmN]

/-- C16: on a vector with `ceil(bit_count / 8)` storage bytes, `~(~v) == v` holds under
`operator==`, whatever the padding bits; in particular for every vector that
`BitArray(num_bits, value)` returns, and it returns one whenever
`0 ≤ num_bits ≤ INT_MAX - 7`. -/
theorem complement_involution (v : BitArray) (hs : Sized v) :
    (∃ r1 r2, v.complement = .ok r1 ∧ r1.complement = .ok r2 ∧ op_eq r2 v = .ok true) ∧
    (∀ (w : Nat) (num_bits : Int) (value : Nat) (c : BitArray), num_bits ≤ INT_MAX →
      ctor w num_bits value = .ok c →
      ∃ r1 r2, c.complement = .ok r1 ∧ r1.complement = .ok r2 ∧ op_eq r2 c = .ok true) ∧
    (∀ (w : Nat) (num_bits : Int) (value : Nat), 0 ≤ num_bits → num_bits ≤ INT_MAX - 7 →
      ∃ c r1 r2, ctor w num_bits value = .ok c ∧ c.complement = .ok r1 ∧
        r1.complement = .ok r2 ∧ op_eq r2 c = .ok true) := by
  refine ⟨complement_twice v hs, ?_, ?_⟩
  · intro w num_bits value c hint hc
    exact complement_twice c (sized_of_ctor w num_bits value c hint hc)
  · intro w num_bits value h hmax
    obtain ⟨c, hc, hsc⟩ := sized_ctor w num_bits value h hmax
    obtain ⟨r1, r2, h1, h2, h3⟩ := complement_twice c hsc
    exact ⟨c, r1, r2, hc, h1, h2, h3⟩

theorem complement_involution_witness :
    (∃ r1 r2, BitArray.complement ⟨[0xFF], 3⟩ = .ok r1 ∧ r1.complement = .ok r2 ∧
      op_eq r2 ⟨[0xFF], 3⟩ = .ok true) ∧
    (∃ c r1 r2, ctor 8 3 0xFF = .ok c ∧ c.complement = .ok r1 ∧
      r1.complement = .ok r2 ∧ op_eq r2 c = .ok true) :=
  ⟨(complement_involution ⟨[0xFF], 3⟩ (by decide)).1,
    (complement_involution ⟨[0xFF], 3⟩ (by decide)).2.2 8 3 0xFF (by decide) (by decide)⟩

theorem sized_of_eq {a r : BitArray} (hs : Sized a) (h1 : r.size = a.size)
    (h2 : r.data.length = a.data.length) : Sized r := by
  simp only [BitArray.size] at h1
  obtain ⟨x, y, z⟩ := hs
  refine ⟨by omega, ?_, ?_⟩ <;> rw [h1, h2] <;> assumption

theorem and_or_xor (a b : BitArray) (hsa : Sized a) (hsb : Sized b) (heq : a.size = b.size) :
    ∃ x y l r, op_and a b = .ok x ∧ op_xor a b = .ok y ∧ op_or x y = .ok l ∧
      op_or a b = .ok r ∧ op_eq l r = .ok true := by
  obtain ⟨x, _, hx, hxs, hxl, hxg⟩ :=
    bytewise_ok _ _ (fun x y t => Nat.testBit_and x y t) a b hsa hsb heq
  obtain ⟨y, _, hy, hys, hyl, hyg⟩ :=
    bytewise_ok _ _ (fun x y t => Nat.testBit_xor x y t) a b hsa hsb heq
  obtain ⟨r, _, hr, hrs, hrl, hrg⟩ :=
    bytewise_ok _ _ (fun x y t => Nat.testBit_or x y t) a b hsa hsb heq
  have hsx : Sized x := sized_of_eq hsa hxs hxl
  have hsy : Sized y := sized_of_eq hsa hys hyl
  obtain ⟨l, _, hl, hls, hll, hlg⟩ :=
    bytewise_ok _ _ (fun x y t => Nat.testBit_or x y t) x y hsx hsy (by rw [hxs, hys])
  have hsl : Sized l := sized_of_eq hsx hls hll
  have hsr : Sized r := sized_of_eq hsa hrs hrl
  have hlr : l.size = r.size := by rw [hls, hxs, hrs]
  refine ⟨x, y, l, r, hx, hy, hl, hr, op_eq_true l r hsl hsr hlr ?_⟩
  apply (bits_iff_get l r hsl hsr hlr).2
  intro i hi0 hi1
  have hia : i < a.size := by rw [← hxs, ← hls]; exact hi1
  have hix : i < x.size := by rw [hxs]; exact hia
  obtain ⟨p, q, hp, hq, hlget⟩ := hlg i hi0 hix
  obtain ⟨p1, q1, hp1, hq1, hxget⟩ := hxg i hi0 hia
  obtain ⟨p2, q2, hp2, hq2, hyget⟩ := hyg i hi0 hia
  obtain ⟨p3, q3, hp3, hq3, hrget⟩ := hrg i hi0 hia
  rw [hp1] at hp2 hp3
  rw [hq1] at hq2 hq3
  rw [hxget] at hp
  rw [hyget] at hq
  have e2 := Except.ok.inj hp2
  have e3 := Except.ok.inj hp3
  have f2 := Except.ok.inj hq2
  have f3 := Except.ok.inj hq3
  have ep := Except.ok.inj hp
  have eq := Except.ok.inj hq
  rw [hlget, hrget, ← ep, ← eq, ← e2, ← e3, ← f2, ← f3]
  cases p1 <;> cases q1 <;> rfl

theorem bytewise_run (op : Nat → Nat → Nat) (a b : BitArray)
    (hlen : a.data.length = b.data.length) (heq : a.size = b.size) :
    ∃ d, bytewiseAssign op a b = ⟨none, ⟨d, a.bit_count⟩⟩ ∧ d.length = a.data.length ∧
      ∀ m, m < a.data.length →
        d.getD m 0 = op (a.data.getD m 0) (b.data.getD m 0) % 256 := by
  simp only [BitArray.size] at heq
  obtain ⟨d, hd, hdl, hdm⟩ := loopUp_bytes (bytewiseBody op b)
    (fun m x => op x (b.data.getD m 0) % 256) (fun m => m < b.data.length)
    (fun i v hi ho => bytewiseBody_nat op b i v hi ho) a.data.length 0 a
    (by omega) (fun i _ h => by omega)
  refine ⟨d, ?_, hdl, ?_⟩
  · have hne : ¬ a.bit_count ≠ b.bit_count := by simp [heq]
    have hk : ((a.data.length : Int) - 0).toNat = a.data.length := by omega
    simp only [bytewiseAssign, checkSameSize, hne, if_false, forUp, hk]
    exact_mod_cast hd
  · intro m hm
    have h1 : 0 ≤ m ∧ m < 0 + a.data.length := by omega
    rw [hdm m, if_pos h1]

theorem none_iff_zero (v : BitArray) : v.none = true ↔ ∀ b ∈ v.data, b = 0 := by
  simp [BitArray.none, BitArray.any]

theorem and_complement_none (a : BitArray) (hs : Sized a) :
    ∃ c z, a.complement = .ok c ∧ op_and a c = .ok z ∧ z.none = true := by
  obtain ⟨dat, bc⟩ := a
  obtain ⟨N, rfl⟩ := Int.eq_ofNat_of_zero_le hs.1
  obtain ⟨dc, hdc, hlc, hmc⟩ := complement_ok dat N hs
  obtain ⟨d, hd, hdl, hdm⟩ := bytewise_run (fun x y => x &&& y) ⟨dat, N⟩ ⟨dc, N⟩
    (by simp only [hlc]) rfl
  refine ⟨⟨dc, N⟩, ⟨d, N⟩, hdc, ?_, ?_⟩
  · have : BitArray.andAssign ⟨dat, N⟩ ⟨dc, N⟩ = ⟨none, ⟨d, N⟩⟩ := hd
    simp only [op_and, this, returned]
  · rw [none_iff_zero]
    intro b hb
    obtain ⟨j, hj⟩ := List.mem_iff_getElem?.1 hb
    have hjlt : j < d.length := by
      by_contra h
      rw [List.getElem?_eq_none (Nat.le_of_not_lt h)] at hj
      simp at hj
    have hbyte : b = (dat.getD j 0 &&& dc.getD j 0) % 256 := by
      have := hdm j (by simpa [hdl] using hjlt)
      simp only [List.getD_eq_getElem?_getD, hj, Option.getD_some] at this
      simpa [List.getD_eq_getElem?_getD] using this
    apply Nat.eq_of_testBit_eq
    intro t
    have e8 : (256 : Nat) = 2 ^ 8 := by norm_num
    rw [hbyte, e8, Nat.testBit_mod_two_pow, Nat.testBit_and, Nat.zero_testBit]
    by_cases ht : t < 8
    · have h1 : (8 * j + t) / 8 = j := by omega
      have h2 : (8 * j + t) % 8 = t := by omega
      have hy := hmc (8 * j + t)
      simp only [storageBit, h1, h2] at hy
      rw [hy]
      cases (dat.getD j 0).testBit t <;> simp
    · simp [ht]

/-- C17: for vectors `a`, `b` of equal size, each with `ceil(bit_count / 8)` storage bytes,
`((a & b) | (a ^ b)) == (a | b)` holds under `operator==`, and `(a & ~a).none()` is true. -/
theorem algebra_spec (a b : BitArray) (hsa : Sized a) (hsb : Sized b) (heq : a.size = b.size) :
    (∃ x y l r, op_and a b = .ok x ∧ op_xor a b = .ok y ∧ op_or x y = .ok l ∧
      op_or a b = .ok r ∧ op_eq l r = .ok true) ∧
    (∃ c z, a.complement = .ok c ∧ op_and a c = .ok z ∧ z.none = true) :=
  ⟨and_or_xor a b hsa hsb heq, and_complement_none a hsa⟩

theorem algebra_spec_witness :
    (∃ x y l r, op_and ⟨[0xFD], 3⟩ ⟨[0x06], 3⟩ = .ok x ∧ op_xor ⟨[0xFD], 3⟩ ⟨[0x06], 3⟩ = .ok y ∧
      op_or x y = .ok l ∧ op_or ⟨[0xFD], 3⟩ ⟨[0x06], 3⟩ = .ok r ∧ op_eq l r = .ok true) ∧
    (∃ c z, BitArray.complement ⟨[0xFD], 3⟩ = .ok c ∧ op_and ⟨[0xFD], 3⟩ c = .ok z ∧
      z.none = true) :=
  algebra_spec ⟨[0xFD], 3⟩ ⟨[0x06], 3⟩ (by decide) (by decide) (by decide)

/-! ## Invariant I1 under the mutating operations -/

theorem set_padding (v : BitArray) (hs : Sized v) (hp : PaddingZero v) (index : Int)
    (value : Bool) (hok : (v.set index value).raised = none) :
    PaddingZero (v.set index value).state := by
  have hin : ¬ (index < 0 ∨ index ≥ v.size) := by
    intro h
    rw [((set_raised v index value).1).2 h] at hok
    exact Option.some_ne_none _ hok
  simp only [BitArray.size] at hin
  obtain ⟨n, rfl⟩ := Int.eq_ofNat_of_zero_le (show 0 ≤ index by omega)
  have h1 : (n : Int) < v.bit_count := by omega
  obtain ⟨d, hd, _, hdm⟩ := set_nat (byte_in_range hs h1) h1 value
  rw [hd]
  intro m hm
  simp only at hm
  have hne : m ≠ n := by omega
  rw [hdm m, if_neg hne]
  exact hp m hm

theorem set_all_padding (v : BitArray) (hs : Sized v) :
    v.set_all.raised = none ∧ PaddingZero v.set_all.state := by
  obtain ⟨dat, bc⟩ := v
  obtain ⟨N, rfl⟩ := Int.eq_ofNat_of_zero_le hs.1
  have hs1 : Sized ⟨dat.map (fun _ => 0xFF), N⟩ :=
    sized_of_length (v := ⟨dat, N⟩) hs _ (by simp)
  obtain ⟨d, hd, _, hm⟩ := maskLast_ok _ N hs1
  have hrun : BitArray.set_all ⟨dat, N⟩ = ⟨none, ⟨d, N⟩⟩ := hd
  rw [hrun]
  exact ⟨rfl, paddingZero_of_bits d N _ hm⟩

theorem maskLast_shape (v : BitArray) :
    (maskLast v).state.bit_count = v.bit_count ∧
      (maskLast v).state.data.length = v.data.length := by
  unfold maskLast
  by_cases hpos : v.bit_count > 0
  · by_cases hlb : Int.tmod v.bit_count 8 = 0
    · simp only [hpos, if_true, ne_eq, hlb, not_true_eq_false, if_false, and_self]
    · simp only [hpos, if_true, ne_eq, hlb, not_false_eq_true]
      rcases load_cases v.data ((v.data.length : Int) - 1) with ⟨x, hx⟩ | hx
      · rw [hx]
        simp only []
        generalize x &&& ((1 <<< (Int.tmod v.bit_count 8).toNat) - 1) % 256 = y
        rcases store_cases v.data ((v.data.length : Int) - 1) y with ⟨d1, hd1, hl⟩ | hd1
        · rw [hd1]
          exact ⟨rfl, hl⟩
        · rw [hd1]
          exact ⟨rfl, rfl⟩
      · rw [hx]
        exact ⟨rfl, rfl⟩
  · simp only [hpos, if_false, and_self]

theorem resize_padding (v : BitArray) (new_size : Int) (fill : Bool)
    (hok : (v.resize new_size fill).raised = none) :
    PaddingZero (v.resize new_size fill).state := by
  have h0 : 0 ≤ new_size := by
    by_contra h
    have hneg : new_size < 0 := by omega
    simp [resize, hneg] at hok
  by_cases hmax : new_size ≤ INT_MAX - 7
  · obtain ⟨n, rfl⟩ := Int.eq_ofNat_of_zero_le h0
    obtain ⟨d, hd, _, hdm⟩ := resize_ok v n fill hmax
    rw [hd]
    exact paddingZero_of_bits d n _ hdm
  · have hbig : wrapInt (new_size + 7) ≤ new_size + 7 - 4294967296 := by
      simp only [INT_MAX] at hmax
      exact wrapInt_big _ (by omega)
    have hneg : ¬ new_size < 0 := by omega
    by_cases hnb : Int.tdiv (wrapInt (new_size + 7)) 8 < 0
    · simp only [resize, hneg, if_false, vecResizeInt, hnb, if_true] at hok
      exact absurd hok (Option.some_ne_none _)
    · obtain ⟨nbc, hbc⟩ := Int.eq_ofNat_of_zero_le (show 0 ≤ Int.tdiv (wrapInt (new_size + 7)) 8
        by omega)
      obtain ⟨d2, hl2, _, hrun⟩ := resize_stage v new_size fill h0 nbc hbc
      have hsh := maskLast_shape ⟨d2, new_size⟩
      have hle := tdiv_eight_le _ nbc hbc new_size h0 (by omega)
      rw [hrun]
      intro j hj
      rw [hsh.1] at hj
      simp only at hj
      exact storageBit_of_le _ _ (by rw [hsh.2]; simp only [hl2]; omega)

theorem push_back_padding (v : BitArray) (bit : Bool)
    (hok : (v.push_back bit).raised = none) : PaddingZero (v.push_back bit).state := by
  generalize hn1 : wrapInt (v.bit_count + 1) = n1
  rw [push_back_unfold v bit n1 hn1] at hok ⊢
  by_cases hneg : n1 < 0
  · have hr : v.resize n1 false = ⟨some .invalid_argument, v⟩ := by simp [resize, hneg]
    rw [hr] at hok
    exact absurd hok (Option.some_ne_none _)
  · have hint : n1 ≤ INT_MAX := by
      have := (wrapInt_range (v.bit_count + 1)).2
      rw [hn1] at this
      simpa [INT_MAX] using this
    by_cases hmax : n1 ≤ INT_MAX - 7
    · obtain ⟨n, rfl⟩ := Int.eq_ofNat_of_zero_le (show 0 ≤ n1 by omega)
      obtain ⟨d, hd, hsd, hdm⟩ := resize_ok v n false hmax
      rw [hd] at hok ⊢
      exact set_padding ⟨d, n⟩ hsd (paddingZero_of_bits d n _ hdm) _ bit hok
    · rw [resize_overflow v n1 false (by omega) hint] at hok
      exact absurd hok (Option.some_ne_none _)

theorem bytewise_padding (op : Nat → Nat → Nat) (f : Bool → Bool → Bool)
    (hop : ∀ x y t, (op x y).testBit t = f (x.testBit t) (y.testBit t))
    (hff : f false false = false)
    (a b : BitArray) (hsa : Sized a) (hsb : Sized b) (hpa : PaddingZero a)
    (hpb : PaddingZero b) (hok : (bytewiseAssign op a b).raised = none) :
    PaddingZero (bytewiseAssign op a b).state := by
  have heq : a.size = b.size := by
    by_contra hne
    rw [(bytewise_mismatch op a b).2.1 hne] at hok
    exact Option.some_ne_none _ hok
  have hbc : a.bit_count = b.bit_count := heq
  have hlen : a.data.length = b.data.length := by
    obtain ⟨_, h1, h2⟩ := hsa
    obtain ⟨_, h3, h4⟩ := hsb
    omega
  obtain ⟨d, hd, hdl, hdm⟩ := bytewise_run op a b hlen heq
  rw [hd]
  intro m hm
  simp only at hm
  by_cases hin : m / 8 < a.data.length
  · have ha := hpa m hm
    have hb := hpb m (by rw [← hbc]; exact hm)
    have e8 : (256 : Nat) = 2 ^ 8 := by norm_num
    have h8 : m % 8 < 8 := Nat.mod_lt _ (by decide)
    simp only [storageBit] at ha hb ⊢
    rw [hdm _ hin, e8, Nat.testBit_mod_two_pow, hop, ha, hb, hff]
    simp
  · exact storageBit_of_le d m (by omega)

theorem shl_padding (v : BitArray) (hs : Sized v) (hp : PaddingZero v) (n : Int)
    (hok : (v.shlAssign n).raised = none) : PaddingZero (v.shlAssign n).state := by
  have h0 : 0 ≤ n := by
    by_contra h
    rw [(shift_invalid v n).1.2 (by omega)] at hok
    exact Option.some_ne_none _ hok
  obtain ⟨dat, bc⟩ := v
  obtain ⟨N, rfl⟩ := Int.eq_ofNat_of_zero_le hs.1
  obtain ⟨k, rfl⟩ := Int.eq_ofNat_of_zero_le h0
  obtain ⟨d, hd, _, _, _, hpad⟩ := shl_ok dat N k hs
  rw [hd]
  intro m hm
  simp only at hm
  exact hpad m (by omega) (hp m hm)

theorem shr_padding (v : BitArray) (hs : Sized v) (hp : PaddingZero v) (n : Int)
    (hok : (v.shrAssign n).raised = none) : PaddingZero (v.shrAssign n).state := by
  have h0 : 0 ≤ n := by
    by_contra h
    rw [(shift_invalid v n).2.2 (by omega)] at hok
    exact Option.some_ne_none _ hok
  obtain ⟨dat, bc⟩ := v
  obtain ⟨N, rfl⟩ := Int.eq_ofNat_of_zero_le hs.1
  obtain ⟨k, rfl⟩ := Int.eq_ofNat_of_zero_le h0
  obtain ⟨d, hd, _, _, _, hpad⟩ := shr_ok dat N k hs
  rw [hd]
  intro m hm
  simp only at hm
  exact hpad m (by omega) (hp m hm)

theorem zeros_padding (d : List Nat) (n : Int) :
    PaddingZero ⟨d.map (fun _ => 0x00), n⟩ :=
  fun m _ => storageBit_zeros d m

theorem complement_padding (v : BitArray) (hs : Sized v) :
    ∃ r, v.complement = .ok r ∧ PaddingZero r := by
  obtain ⟨dat, bc⟩ := v
  obtain ⟨N, rfl⟩ := Int.eq_ofNat_of_zero_le hs.1
  obtain ⟨d, hd, _, hm⟩ := complement_ok dat N hs
  exact ⟨⟨d, N⟩, hd, paddingZero_of_bits d N _ hm⟩

/-- C19: starting from vectors that satisfy I1 and I2, every successful `set(index, value)`,
`reset(index)`, `set()`, `reset()`, `resize(n, fill)`, `push_back(bit)`, `clear()`, `&=`,
`|=`, `^=`, `<<= n`, `>>= n` leaves all storage bits at positions `≥ bit_count` zero; and
`set()`, `resize` and `~` yield a vector satisfying I1 from any vector satisfying I2, whatever
its padding bits. -/
theorem padding_preserved (v other : BitArray) (hs : Sized v) (hso : Sized other) :
    (PaddingZero v → PaddingZero other →
      (∀ index value, (v.set index value).raised = none →
        PaddingZero (v.set index value).state) ∧
      (∀ index, (v.reset index).raised = none → PaddingZero (v.reset index).state) ∧
      (v.set_all.raised = none → PaddingZero v.set_all.state) ∧
      (v.reset_all.raised = none → PaddingZero v.reset_all.state) ∧
      (∀ n fill, (v.resize n fill).raised = none → PaddingZero (v.resize n fill).state) ∧
      (∀ bit, (v.push_back bit).raised = none → PaddingZero (v.push_back bit).state) ∧
      (v.clear.raised = none → PaddingZero v.clear.state) ∧
      ((v.andAssign other).raised = none → PaddingZero (v.andAssign other).state) ∧
      ((v.orAssign other).raised = none → PaddingZero (v.orAssign other).state) ∧
      ((v.xorAssign other).raised = none → PaddingZero (v.xorAssign other).state) ∧
      (∀ n, (v.shlAssign n).raised = none → PaddingZero (v.shlAssign n).state) ∧
      (∀ n, (v.shrAssign n).raised = none → PaddingZero (v.shrAssign n).state)) ∧
    (v.set_all.raised = none ∧ PaddingZero v.set_all.state) ∧
    (∀ n fill, (v.resize n fill).raised = none → PaddingZero (v.resize n fill).state) ∧
    (∃ r, v.complement = .ok r ∧ PaddingZero r) := by
  refine ⟨?_, set_all_padding v hs, fun n fill => resize_padding v n fill,
    complement_padding v hs⟩
  intro hp hpo
  refine ⟨fun index value => set_padding v hs hp index value,
    fun index => set_padding v hs hp index false,
    fun _ => (set_all_padding v hs).2,
    fun _ => zeros_padding v.data v.bit_count,
    fun n fill => resize_padding v n fill,
    fun bit hok => push_back_padding v bit hok,
    fun _ => (fun m _ => storageBit_of_le [] m (Nat.zero_le _)),
    bytewise_padding _ _ (fun x y t => Nat.testBit_and x y t) rfl v other hs hso hp hpo,
    bytewise_padding _ _ (fun x y t => Nat.testBit_or x y t) rfl v other hs hso hp hpo,
    bytewise_padding _ _ (fun x y t => Nat.testBit_xor x y t) rfl v other hs hso hp hpo,
    fun n => shl_padding v hs hp n,
    fun n => shr_padding v hs hp n⟩

theorem padding_preserved_witness :
    ((∀ index value, ((⟨[0x05], 3⟩ : BitArray).set index value).raised = none →
        PaddingZero ((⟨[0x05], 3⟩ : BitArray).set index value).state) ∧
      (∀ index, ((⟨[0x05], 3⟩ : BitArray).reset index).raised = none → PaddingZero ((⟨[0x05], 3⟩ : BitArray).reset index).state) ∧
      ((⟨[0x05], 3⟩ : BitArray).set_all.raised = none → PaddingZero (⟨[0x05], 3⟩ : BitArray).set_all.state) ∧
      ((⟨[0x05], 3⟩ : BitArray).reset_all.raised = none → PaddingZero (⟨[0x05], 3⟩ : BitArray).reset_all.state) ∧
      (∀ n fill, ((⟨[0x05], 3⟩ : BitArray).resize n fill).raised = none →
        PaddingZero ((⟨[0x05], 3⟩ : BitArray).resize n fill).state) ∧
      (∀ bit, ((⟨[0x05], 3⟩ : BitArray).push_back bit).raised = none →
        PaddingZero ((⟨[0x05], 3⟩ : BitArray).push_back bit).state) ∧
      ((⟨[0x05], 3⟩ : BitArray).clear.raised = none → PaddingZero (⟨[0x05], 3⟩ : BitArray).clear.state) ∧
      (((⟨[0x05], 3⟩ : BitArray).andAssign (⟨[0x06], 3⟩ : BitArray)).raised = none →
        PaddingZero ((⟨[0x05], 3⟩ : BitArray).andAssign (⟨[0x06], 3⟩ : BitArray)).state) ∧
      (((⟨[0x05], 3⟩ : BitArray).orAssign (⟨[0x06], 3⟩ : BitArray)).raised = none →
        PaddingZero ((⟨[0x05], 3⟩ : BitArray).orAssign (⟨[0x06], 3⟩ : BitArray)).state) ∧
      (((⟨[0x05], 3⟩ : BitArray).xorAssign (⟨[0x06], 3⟩ : BitArray)).raised = none →
        PaddingZero ((⟨[0x05], 3⟩ : BitArray).xorAssign (⟨[0x06], 3⟩ : BitArray)).state) ∧
      (∀ n, ((⟨[0x05], 3⟩ : BitArray).shlAssign n).raised = none → PaddingZero ((⟨[0x05], 3⟩ : BitArray).shlAssign n).state) ∧
      (∀ n, ((⟨[0x05], 3⟩ : BitArray).shrAssign n).raised = none →
        PaddingZero ((⟨[0x05], 3⟩ : BitArray).shrAssign n).state)) ∧
    ((⟨[0xFD], 3⟩ : BitArray).set_all.raised = none ∧ PaddingZero (⟨[0xFD], 3⟩ : BitArray).set_all.state) ∧
    (∀ n fill, ((⟨[0xFD], 3⟩ : BitArray).resize n fill).raised = none →
      PaddingZero ((⟨[0xFD], 3⟩ : BitArray).resize n fill).state) ∧
    (∃ r, (⟨[0xFD], 3⟩ : BitArray).complement = .ok r ∧ PaddingZero r) :=
  ⟨(padding_preserved ⟨[0x05], 3⟩ ⟨[0x06], 3⟩ (by decide) (by decide)).1
      (padding_small 5 3 (by decide)) (padding_small 6 3 (by decide)),
    (padding_preserved ⟨[0xFD], 3⟩ ⟨[0x06], 3⟩ (by decide) (by decide)).2⟩

/-! ## Invariant I2 -/

theorem set_sized (v : BitArray) (hs : Sized v) (index : Int) (value : Bool) :
    Sized (v.set index value).state :=
  sized_of_eq hs (set_raised v index value).2.2.2.1 (set_raised v index value).2.2.2.2

theorem resize_sized (v : BitArray) (hs : Sized v) (new_size : Int) (fill : Bool)
    (hint : new_size ≤ INT_MAX) : Sized (v.resize new_size fill).state := by
  by_cases h : new_size < 0
  · simp only [resize, h, if_true]
    exact hs
  · by_cases hmax : new_size ≤ INT_MAX - 7
    · obtain ⟨n, rfl⟩ := Int.eq_ofNat_of_zero_le (show 0 ≤ new_size by omega)
      obtain ⟨d, hd, hsd, _⟩ := resize_ok v n fill hmax
      rw [hd]
      exact hsd
    · rw [resize_overflow v new_size fill (by omega) hint]
      exact hs

theorem push_back_sized (v : BitArray) (hs : Sized v) (bit : Bool) :
    Sized (v.push_back bit).state := by
  generalize hn1 : wrapInt (v.bit_count + 1) = n1
  have hint : n1 ≤ INT_MAX := by
    have := (wrapInt_range (v.bit_count + 1)).2
    rw [hn1] at this
    simpa [INT_MAX] using this
  have hr := resize_sized v hs n1 false hint
  rw [push_back_unfold v bit n1 hn1]
  generalize v.resize n1 false = o at hr
  obtain ⟨e, st⟩ := o
  cases e with
  | none => exact set_sized st hr _ _
  | some e => exact hr

theorem set_all_sized (v : BitArray) (hs : Sized v) : Sized v.set_all.state := by
  obtain ⟨dat, bc⟩ := v
  obtain ⟨N, rfl⟩ := Int.eq_ofNat_of_zero_le hs.1
  have hs1 : Sized ⟨dat.map (fun _ => 0xFF), N⟩ :=
    sized_of_length (v := ⟨dat, N⟩) hs _ (by simp)
  obtain ⟨d, hd, hl, _⟩ := maskLast_ok _ N hs1
  have hrun : BitArray.set_all ⟨dat, N⟩ = ⟨none, ⟨d, N⟩⟩ := hd
  rw [hrun]
  exact sized_of_length (v := ⟨dat, N⟩) hs d (by simpa using hl)

theorem bytewise_sized (op : Nat → Nat → Nat) (a b : BitArray) (hsa : Sized a)
    (hsb : Sized b) : Sized (bytewiseAssign op a b).state := by
  by_cases heq : a.size = b.size
  · have hlen : a.data.length = b.data.length := by
      simp only [BitArray.size] at heq
      obtain ⟨_, h1, h2⟩ := hsa
      obtain ⟨_, h3, h4⟩ := hsb
      omega
    obtain ⟨d, hd, hdl, _⟩ := bytewise_run op a b hlen heq
    rw [hd]
    exact sized_of_length hsa d hdl
  · rw [(bytewise_mismatch op a b).2.1 heq]
    exact hsa

theorem shl_sized (v : BitArray) (hs : Sized v) (n : Int) : Sized (v.shlAssign n).state := by
  by_cases h : n < 0
  · rw [(shift_invalid v n).1.2 h]
    exact hs
  · obtain ⟨dat, bc⟩ := v
    obtain ⟨N, rfl⟩ := Int.eq_ofNat_of_zero_le hs.1
    obtain ⟨k, rfl⟩ := Int.eq_ofNat_of_zero_le (show 0 ≤ n by omega)
    obtain ⟨d, hd, hl, _⟩ := shl_ok dat N k hs
    rw [hd]
    exact sized_of_length (v := ⟨dat, N⟩) hs d hl

theorem shr_sized (v : BitArray) (hs : Sized v) (n : Int) : Sized (v.shrAssign n).state := by
  by_cases h : n < 0
  · rw [(shift_invalid v n).2.2 h]
    exact hs
  · obtain ⟨dat, bc⟩ := v
    obtain ⟨N, rfl⟩ := Int.eq_ofNat_of_zero_le hs.1
    obtain ⟨k, rfl⟩ := Int.eq_ofNat_of_zero_le (show 0 ≤ n by omega)
    obtain ⟨d, hd, hl, _⟩ := shr_ok dat N k hs
    rw [hd]
    exact sized_of_length (v := ⟨dat, N⟩) hs d hl

theorem complement_sized (v : BitArray) (hs : Sized v) :
    ∃ r, v.complement = .ok r ∧ Sized r := by
  obtain ⟨dat, bc⟩ := v
  obtain ⟨N, rfl⟩ := Int.eq_ofNat_of_zero_le hs.1
  obtain ⟨d, hd, hl, _⟩ := complement_ok dat N hs
  exact ⟨⟨d, N⟩, hd, sized_of_length (v := ⟨dat, N⟩) hs d hl⟩

/-- C20: the vector produced by `BitArray()` and every vector that
`BitArray(num_bits, value)` returns (it returns one whenever `0 ≤ num_bits ≤ INT_MAX - 7`)
have `bit_count ≥ 0` and exactly `ceil(bit_count / 8)` storage bytes (a copy is the same
value), and `resize` (its argument an `int`), `clear`, `push_back`, `set`, `reset`, `&=`,
`|=`, `^=`, `<<=`, `>>=`, `~` and `swap` keep this, whether they return or raise. -/
theorem sizing_spec (v other : BitArray) :
    Sized empty_ctor ∧
    (∀ (w : Nat) (num_bits : Int) (value : Nat) (c : BitArray), num_bits ≤ INT_MAX →
      ctor w num_bits value = .ok c → Sized c) ∧
    (∀ (w : Nat) (num_bits : Int) (value : Nat), 0 ≤ num_bits → num_bits ≤ INT_MAX - 7 →
      ∃ c, ctor w num_bits value = .ok c ∧ Sized c) ∧
    (Sized v → Sized other →
      (∀ n fill, n ≤ INT_MAX → Sized (v.resize n fill).state) ∧
      Sized v.clear.state ∧
      (∀ bit, Sized (v.push_back bit).state) ∧
      (∀ index value, Sized (v.set index value).state) ∧
      (∀ index, Sized (v.reset index).state) ∧
      Sized v.set_all.state ∧
      Sized v.reset_all.state ∧
      Sized (v.andAssign other).state ∧
      Sized (v.orAssign other).state ∧
      Sized (v.xorAssign other).state ∧
      (∀ n, Sized (v.shlAssign n).state) ∧
      (∀ n, Sized (v.shrAssign n).state) ∧
      (∃ r, v.complement = .ok r ∧ Sized r) ∧
      Sized (v.swap other).1 ∧ Sized (v.swap other).2) := by
  refine ⟨by decide,
    fun w num_bits value c hint hc => sized_of_ctor w num_bits value c hint hc,
    fun w num_bits value h hmax => sized_ctor w num_bits value h hmax, ?_⟩
  intro hs hso
  exact ⟨fun n fill hint => resize_sized v hs n fill hint,
    (show Sized ⟨[], 0⟩ by decide),
    fun bit => push_back_sized v hs bit,
    fun index value => set_sized v hs index value,
    fun index => set_sized v hs index false,
    set_all_sized v hs,
    sized_of_length hs _ (by simp),
    bytewise_sized _ v other hs hso,
    bytewise_sized _ v other hs hso,
    bytewise_sized _ v other hs hso,
    fun n => shl_sized v hs n,
    fun n => shr_sized v hs n,
    complement_sized v hs,
    hso, hs⟩

theorem sizing_spec_witness :
    (∃ c, ctor 8 3 0xFF = .ok c ∧ Sized c) ∧
    (∀ n fill, n ≤ INT_MAX → Sized (BitArray.resize ⟨[0xFD], 3⟩ n fill).state) ∧
    Sized (BitArray.clear ⟨[0xFD], 3⟩).state ∧
    (∀ bit, Sized (BitArray.push_back ⟨[0xFD], 3⟩ bit).state) ∧
    (∀ index value, Sized (BitArray.set ⟨[0xFD], 3⟩ index value).state) ∧
    (∀ index, Sized (BitArray.reset ⟨[0xFD], 3⟩ index).state) ∧
    Sized (BitArray.set_all ⟨[0xFD], 3⟩).state ∧
    Sized (BitArray.reset_all ⟨[0xFD], 3⟩).state ∧
    Sized (BitArray.andAssign ⟨[0xFD], 3⟩ ⟨[0x06], 3⟩).state ∧
    Sized (BitArray.orAssign ⟨[0xFD], 3⟩ ⟨[0x06], 3⟩).state ∧
    Sized (BitArray.xorAssign ⟨[0xFD], 3⟩ ⟨[0x06], 3⟩).state ∧
    (∀ n, Sized (BitArray.shlAssign ⟨[0xFD], 3⟩ n).state) ∧
    (∀ n, Sized (BitArray.shrAssign ⟨[0xFD], 3⟩ n).state) ∧
    (∃ r, BitArray.complement ⟨[0xFD], 3⟩ = .ok r ∧ Sized r) ∧
    Sized (BitArray.swap ⟨[0xFD], 3⟩ ⟨[0x06], 3⟩).1 ∧
    Sized (BitArray.swap ⟨[0xFD], 3⟩ ⟨[0x06], 3⟩).2 :=
  ⟨(sizing_spec ⟨[0xFD], 3⟩ ⟨[0x06], 3⟩).2.2.1 8 3 0xFF (by decide) (by decide),
    (sizing_spec ⟨[0xFD], 3⟩ ⟨[0x06], 3⟩).2.2.2 (by decide) (by decide)⟩

/-! ## The constructor and the padding bits -/

theorem store_eq (d : List Nat) (i : Int) (b : Nat) (d1 : List Nat)
    (h : store d i b = .ok d1) : d1 = d.set i.toNat (b % 256) := by
  unfold store at h
  split_ifs at h
  exact (Except.ok.inj h).symm

theorem maskLast_bytes (v : BitArray) (hb : Bytes v) : Bytes (maskLast v).state := by
  unfold maskLast
  by_cases hpos : v.bit_count > 0
  · by_cases hlb : Int.tmod v.bit_count 8 = 0
    · simp only [hpos, if_true, ne_eq, hlb, not_true_eq_false, if_false]
      exact hb
    · simp only [hpos, if_true, ne_eq, hlb, not_false_eq_true]
      rcases load_cases v.data ((v.data.length : Int) - 1) with ⟨x, hx⟩ | hx
      · rw [hx]
        simp only []
        generalize x &&& ((1 <<< (Int.tmod v.bit_count 8).toNat) - 1) % 256 = y
        cases hst : store v.data ((v.data.length : Int) - 1) y with
        | error e => exact hb
        | ok d1 =>
          intro b hmem
          simp only at hmem
          rw [store_eq _ _ _ _ hst] at hmem
          rcases List.mem_or_eq_of_mem_set hmem with h | h
          · exact hb b h
          · rw [h]
            exact Nat.mod_lt _ (by decide)
      · rw [hx]
        exact hb
  · simp only [hpos, if_false]
    exact hb

theorem complement_bytes (v r : BitArray) (h : v.complement = .ok r) : Bytes r := by
  have hmap : Bytes ⟨v.data.map (fun byte => bitNot32 byte % 256), v.bit_count⟩ := by
    intro b hb
    simp only [List.mem_map] at hb
    obtain ⟨x, _, rfl⟩ := hb
    exact Nat.mod_lt _ (by decide)
  have hm := maskLast_bytes _ hmap
  unfold complement at h
  generalize maskLast ⟨v.data.map (fun byte => bitNot32 byte % 256), v.bit_count⟩ = o at h hm
  obtain ⟨e, st⟩ := o
  cases e with
  | none =>
    simp only [returned] at h
    rw [← Except.ok.inj h]
    exact hm
  | some e => simp [returned] at h

theorem count_eq_countP (dat : List Nat) (N : Nat) (hb : Bytes ⟨dat, N⟩) (hs : Sized ⟨dat, N⟩)
    (hp : PaddingZero ⟨dat, N⟩) :
    BitArray.count ⟨dat, N⟩ = ((List.range N).countP (storageBit dat) : Nat) := by
  simp only [BitArray.count, count_fold dat hb 0, zero_add]
  rw [ones_eq_countP, countP_padding dat N hs hp]

/-- On a vector that satisfies I1 and I2 and whose bytes are `unsigned char`, the counts of
the vector and of its complement add up to the size. -/
theorem count_partition (a : BitArray) (hb : Bytes a) (hs : Sized a) (hp : PaddingZero a) :
    ∃ r, a.complement = .ok r ∧ a.count + r.count = a.size := by
  obtain ⟨dat, bc⟩ := a
  obtain ⟨N, rfl⟩ := Int.eq_ofNat_of_zero_le hs.1
  obtain ⟨d, hd, hl, hm⟩ := complement_ok dat N hs
  have hsr : Sized ⟨d, N⟩ := sized_of_length (v := ⟨dat, N⟩) hs d hl
  have hpr : PaddingZero ⟨d, N⟩ := paddingZero_of_bits d N _ hm
  have hbr : Bytes ⟨d, N⟩ := complement_bytes _ _ hd
  refine ⟨⟨d, N⟩, hd, ?_⟩
  rw [count_eq_countP dat N hb hs hp, count_eq_countP d N hbr hsr hpr]
  have hneg : (List.range N).countP (storageBit d)
      = (List.range N).countP (fun m => decide ¬ (storageBit dat m = true)) := by
    apply List.countP_congr
    intro m hmem
    have hmN : m < N := List.mem_range.1 hmem
    rw [hm m]
    simp [hmN]
  have hlen := List.length_eq_countP_add_countP (p := storageBit dat) (List.range N)
  rw [List.length_range] at hlen
  rw [hneg]
  simp only [BitArray.size]
  exact_mod_cast hlen.symm

theorem bytes_singleton (b : Nat) (n : Int) (h : b < 256) : Bytes ⟨[b], n⟩ := by
  intro x hx
  simp only [List.mem_singleton] at hx
  rw [hx]
  exact h

theorem count_singleton (b : Nat) (n : Int) (h : b < 256) :
    BitArray.count ⟨[b], n⟩ = (onesInByte b : Nat) := by
  simp only [BitArray.count, count_fold [b] (bytes_singleton b n h) 0, zero_add, List.map_cons,
    List.map_nil, List.sum_cons, List.sum_nil, Nat.add_zero]

/-- C13, evaluated on the code: `BitArray(3, 0xFF)`, with an 8-byte `unsigned long`, keeps
the storage byte `0xFF`; its `count()` is `8`, the `count()` of its complement is `0`, and
the two do not add up to `size() = 3`. -/
theorem count_complement_gap :
    ∃ a r, ctor 8 3 0xFF = .ok a ∧ a.complement = .ok r ∧ a.size = 3 ∧
      a.count = 8 ∧ r.count = 0 ∧ a.count + r.count ≠ a.size := by
  have hc : ctor 8 3 0xFF = .ok ⟨[0xFF], 3⟩ := by decide
  have hr : BitArray.complement ⟨[0xFF], 3⟩ = .ok ⟨[0x00], 3⟩ := by decide
  have h1 : BitArray.count ⟨[0xFF], 3⟩ = 8 := by
    rw [count_singleton 0xFF 3 (by decide)]
    decide
  have h2 : BitArray.count ⟨[0x00], 3⟩ = 0 := by
    rw [count_singleton 0x00 3 (by decide)]
    decide
  refine ⟨_, _, hc, hr, rfl, h1, h2, ?_⟩
  rw [h1, h2]
  decide

/-- C18, evaluated on the code: `BitArray(3, 0xFF)`, with an 8-byte `unsigned long`, has
size `3` and storage byte `0xFF`, so the storage bit at position `3 ≥ bit_count` is set and
invariant I1 fails on a vector that comes straight from the constructor. -/
theorem ctor_padding_gap :
    ∃ v, ctor 8 3 0xFF = .ok v ∧ v.size = 3 ∧ v.data = [0xFF] ∧
      storageBit v.data 3 = true ∧ ¬ PaddingZero v := by
  have hc : ctor 8 3 0xFF = .ok ⟨[0xFF], 3⟩ := by decide
  refine ⟨_, hc, rfl, rfl, by decide, ?_⟩
  intro hp
  have h3 := hp 3 (by decide)
  exact absurd h3 (by decide)

/-! ## The storage bytes stay in the range of `unsigned char` -/

theorem loopUp_inv (Q : BitArray → Prop) (body : Int → BitArray → Outcome)
    (hbody : ∀ i v, Q v → Q (body i v).state) :
    ∀ (k : Nat) (s : Int) (v : BitArray), Q v → Q (loopUp body k s v).state := by
  intro k
  induction k with
  | zero => intro s v hv; exact hv
  | succ k ih =>
    intro s v hv
    have hb := hbody s v hv
    unfold loopUp
    split
    · rename_i v1 heq
      rw [heq] at hb
      exact ih _ _ hb
    · rename_i e v1 heq
      rw [heq] at hb
      exact hb

theorem loopDown_inv (Q : BitArray → Prop) (body : Int → BitArray → Outcome)
    (hbody : ∀ i v, Q v → Q (body i v).state) :
    ∀ (k : Nat) (s : Int) (v : BitArray), Q v → Q (loopDown body k s v).state := by
  intro k
  induction k with
  | zero => intro s v hv; exact hv
  | succ k ih =>
    intro s v hv
    have hb := hbody s v hv
    unfold loopDown
    split
    · rename_i v1 heq
      rw [heq] at hb
      exact ih _ _ hb
    · rename_i e v1 heq
      rw [heq] at hb
      exact hb

theorem store_bytes (v : BitArray) (hb : Bytes v) (i : Int) (b : Nat) (d1 : List Nat)
    (h : store v.data i b = .ok d1) : Bytes ⟨d1, v.bit_count⟩ := by
  intro x hx
  simp only at hx
  rw [store_eq _ _ _ _ h] at hx
  rcases List.mem_or_eq_of_mem_set hx with h1 | h1
  · exact hb x h1
  · rw [h1]
    exact Nat.mod_lt _ (by decide)

theorem set_bytes (v : BitArray) (hb : Bytes v) (index : Int) (value : Bool) :
    Bytes (v.set index value).state := by
  unfold BitArray.set
  cases v.checkIndex index with
  | error e => exact hb
  | ok _ =>
    simp only []
    cases load v.data (getByteIndex index) with
    | error e => exact hb
    | ok x =>
      simp only []
      cases hst : store v.data (getByteIndex index)
          (if value = true then x ||| 1 <<< (getBitInByte index).toNat
            else x &&& bitNot32 (1 <<< (getBitInByte index).toNat)) with
      | error e => exact hb
      | ok d1 => exact store_bytes v hb _ _ d1 hst

theorem copyBody_bytes (src : Int → Int) (i : Int) (v : BitArray) (hb : Bytes v) :
    Bytes (match v.get (src i) with
      | .error e => (⟨some e, v⟩ : Outcome)
      | .ok b => v.set i b).state := by
  cases v.get (src i) with
  | error e => exact hb
  | ok b => exact set_bytes v hb i b

theorem writeBody_bytes (b : Nat) (i : Int) (v : BitArray) (hb : Bytes v) :
    Bytes (match store v.data i b with
      | .ok d => (⟨none, { v with data := d }⟩ : Outcome)
      | .error e => ⟨some e, v⟩).state := by
  cases hst : store v.data i b with
  | error e => exact hb
  | ok d1 => exact store_bytes v hb _ _ d1 hst

theorem bytewiseBody_bytes (op : Nat → Nat → Nat) (other : BitArray) (i : Int)
    (v : BitArray) (hb : Bytes v) : Bytes (bytewiseBody op other i v).state := by
  unfold bytewiseBody
  cases load v.data i with
  | error e => exact hb
  | ok x =>
    simp only []
    cases load other.data i with
    | error e => exact hb
    | ok y =>
      simp only []
      cases hst : store v.data i (op x y) with
      | error e => exact hb
      | ok d1 => exact store_bytes v hb _ _ d1 hst

theorem const_bytes (d : List Nat) (c : Nat) (hc : c < 256) (n : Int) :
    Bytes ⟨d.map (fun _ => c), n⟩ := by
  intro x hx
  simp only [List.mem_map] at hx
  obtain ⟨_, _, rfl⟩ := hx
  exact hc

theorem vecResize_bytes (v : BitArray) (hb : Bytes v) (n : Nat) (bc : Int) :
    Bytes ⟨vecResize v.data n, bc⟩ := by
  intro x hx
  simp only [vecResize, List.mem_append, List.mem_replicate] at hx
  rcases hx with h | h
  · exact hb x (List.mem_of_mem_take h)
  · rw [h.2]
    decide

theorem ctor_bytes (w : Nat) (num_bits : Int) (value : Nat) (v : BitArray)
    (h : ctor w num_bits value = .ok v) : Bytes v := by
  unfold ctor at h
  by_cases hneg : num_bits < 0
  · simp [hneg] at h
  · rw [if_neg hneg] at h
    generalize Int.tdiv (wrapInt (num_bits + 7)) 8 = nb at h
    by_cases hnb : nb < 0
    · simp [vecResizeInt, hnb] at h
    · have h0 : Bytes ⟨vecResize [] nb.toNat, num_bits⟩ :=
        vecResize_bytes ⟨[], num_bits⟩ (fun x hx => by simp at hx) _ _
      simp only [vecResizeInt, hnb, if_false] at h
      by_cases hpos : num_bits > 0
      · simp only [hpos, if_true] at h
        have hl := loopUp_inv Bytes (ctorBody value)
          (fun i u hu => writeBody_bytes _ i u hu)
          (min (w : Int) nb - 0).toNat 0 _ h0
        unfold forUp at h
        generalize loopUp (ctorBody value) (min (w : Int) nb - 0).toNat 0
          ⟨vecResize [] nb.toNat, num_bits⟩ = o at h hl
        obtain ⟨e, st⟩ := o
        cases e with
        | none =>
          simp only at h
          rw [← Except.ok.inj h]
          exact hl
        | some e => simp at h
      · simp only [hpos, if_false] at h
        rw [← Except.ok.inj h]
        exact h0

theorem resize_bytes (v : BitArray) (hb : Bytes v) (new_size : Int) (fill : Bool) :
    Bytes (v.resize new_size fill).state := by
  unfold resize
  by_cases hneg : new_size < 0
  · simp only [hneg, if_true]
    exact hb
  · rw [if_neg hneg]
    generalize Int.tdiv (wrapInt (new_size + 7)) 8 = nb
    by_cases hnb : nb < 0
    · simp only [vecResizeInt, hnb, if_true]
      exact hb
    · simp only [vecResizeInt, hnb, if_false]
      have h1 : Bytes ⟨vecResize v.data nb.toNat, v.bit_count⟩ := vecResize_bytes v hb _ _
      have hfill : Bytes (if nb > (v.data.length : Int) then
          forUp (fillBody (if fill = true then 0xFF else 0x00)) (v.data.length : Int) nb
            ⟨vecResize v.data nb.toNat, v.bit_count⟩
          else ⟨none, ⟨vecResize v.data nb.toNat, v.bit_count⟩⟩).state := by
        by_cases hgrow : nb > (v.data.length : Int)
        · rw [if_pos hgrow]
          exact loopUp_inv Bytes _ (fun i u hu => writeBody_bytes _ i u hu) _ _ _ h1
        · rw [if_neg hgrow]
          exact h1
      generalize (if nb > (v.data.length : Int) then
          forUp (fillBody (if fill = true then 0xFF else 0x00)) (v.data.length : Int) nb
            ⟨vecResize v.data nb.toNat, v.bit_count⟩
          else ⟨none, ⟨vecResize v.data nb.toNat, v.bit_count⟩⟩) = o at hfill
      obtain ⟨e, st⟩ := o
      cases e with
      | none => exact maskLast_bytes ⟨st.data, new_size⟩ hfill
      | some e => exact hfill

theorem bytewise_bytes (op : Nat → Nat → Nat) (a b : BitArray) (hb : Bytes a) :
    Bytes (bytewiseAssign op a b).state := by
  unfold bytewiseAssign
  cases a.checkSameSize b with
  | error e => exact hb
  | ok _ => exact loopUp_inv Bytes _ (fun i u hu => bytewiseBody_bytes op b i u hu) _ _ _ hb

theorem clear_loop_bytes (k : Nat) (s : Int) (v : BitArray) (hb : Bytes v) :
    Bytes (loopUp clearBody k s v).state :=
  loopUp_inv Bytes _ (fun i u hu => set_bytes u hu i false) _ _ _ hb

theorem shl_bytes (v : BitArray) (hb : Bytes v) (n : Int) : Bytes (v.shlAssign n).state := by
  unfold shlAssign
  split_ifs
  · exact hb
  · exact const_bytes v.data 0 (by decide) _
  · have h1 := loopDown_inv Bytes (shlBody n)
      (fun i u hu => copyBody_bytes (fun i => i - n) i u hu)
      (v.bit_count - 1 - n + 1).toNat (v.bit_count - 1) v hb
    unfold forDown
    generalize loopDown (shlBody n) (v.bit_count - 1 - n + 1).toNat (v.bit_count - 1) v = o
      at h1
    obtain ⟨e, st⟩ := o
    cases e with
    | none => exact clear_loop_bytes _ _ _ h1
    | some e => exact h1

theorem shr_bytes (v : BitArray) (hb : Bytes v) (n : Int) : Bytes (v.shrAssign n).state := by
  unfold shrAssign
  split_ifs
  · exact hb
  · exact const_bytes v.data 0 (by decide) _
  · have h1 := loopUp_inv Bytes (shrBody n)
      (fun i u hu => copyBody_bytes (fun i => i + n) i u hu)
      (v.bit_count - n - 0).toNat 0 v hb
    unfold forUp
    generalize loopUp (shrBody n) (v.bit_count - n - 0).toNat 0 v = o at h1
    obtain ⟨e, st⟩ := o
    cases e with
    | none => exact clear_loop_bytes _ _ _ h1
    | some e => exact h1

/-- Every storage byte written by the class is an `unsigned char`: the constructors produce
vectors whose bytes are below `256`, and every operation keeps them so. -/
theorem bytes_invariant (v other : BitArray) (hb : Bytes v) :
    Bytes empty_ctor ∧
    (∀ w num_bits value c, ctor w num_bits value = .ok c → Bytes c) ∧
    (∀ index value, Bytes (v.set index value).state) ∧
    Bytes v.set_all.state ∧ Bytes v.reset_all.state ∧ Bytes v.clear.state ∧
    (∀ n fill, Bytes (v.resize n fill).state) ∧
    (∀ bit, Bytes (v.push_back bit).state) ∧
    Bytes (v.andAssign other).state ∧ Bytes (v.orAssign other).state ∧
    Bytes (v.xorAssign other).state ∧
    (∀ n, Bytes (v.shlAssign n).state) ∧ (∀ n, Bytes (v.shrAssign n).state) ∧
    (∀ r, v.complement = .ok r → Bytes r) := by
  refine ⟨fun x hx => by simp [empty_ctor] at hx,
    fun w num_bits value c h => ctor_bytes w num_bits value c h,
    fun index value => set_bytes v hb index value,
    maskLast_bytes _ (const_bytes v.data 0xFF (by decide) _),
    const_bytes v.data 0 (by decide) _,
    fun x hx => by simp [clear] at hx,
    fun n fill => resize_bytes v hb n fill,
    ?_,
    bytewise_bytes _ v other hb, bytewise_bytes _ v other hb, bytewise_bytes _ v other hb,
    fun n => shl_bytes v hb n, fun n => shr_bytes v hb n,
    fun r h => complement_bytes v r h⟩
  intro bit
  have h1 := resize_bytes v hb (wrapInt (v.bit_count + 1)) false
  unfold push_back
  generalize v.resize (wrapInt (v.bit_count + 1)) false = o at h1
  obtain ⟨e, st⟩ := o
  cases e with
  | none => exact set_bytes st h1 _ _
  | some e => exact h1

end Gaoler
